import Mathlib

/-!
Verification of the Pirates tile-word backend.

Shallow embedding conventions:
* A letter is `Fin 26` (the index `charCode - 97` the source uses everywhere).
  Strings handled by the backend are lowercased and stripped of non-alphabetic
  characters on entry (`normalizeGameData`, `letterCounts`), so the embedding
  works with already-normalized words: a word is a `List (Fin 26)` and the
  source's normalization maps are the identity here.
* Letter-count vectors are embedded twice.  The byte-accurate layer
  (`BCounts`, `letterCountsU8`, `processGameStateU8`, ...) models the
  source's `Uint8Array(26)` faithfully: every store wraps modulo 256.
  The ideal layer (`LCounts = Multiset (Fin 26)`, `letterCounts`,
  `processGameState`, ...) is the unbounded multiset abstraction in which
  the specification's letter-accounting properties are phrased: pointwise
  comparison is multiset `≤`, pointwise add is `+`, the clamped subtract
  `Math.max(0, a[i]-b[i])` is truncated multiset subtraction, and
  `sumCounts` is `Multiset.card`.  Bridging lemmas (`bOf`, `noWrap`,
  `processGameStateU8_cold_recommended`) show the two layers agree exactly
  when no per-letter count reaches 256.
-/

namespace Pirates

abbrev Letter := Fin 26

abbrev Word := List Letter

abbrev LCounts := Multiset Letter

/-- Idealized (unbounded) letter-count vector of a word: the multiset of
its letters.  The source's `letterCounts` (gameState.js) stores into a
`Uint8Array(26)` whose increments wrap modulo 256; its faithful embedding
is `letterCountsU8` below, which is the byte image of this multiset. -/
def letterCounts (w : Word) : LCounts := (w : Multiset Letter)

/-- Source `countsToString` (gameState.js): emit one character per count,
iterating letters in alphabetical order (indices 0..25 ascending). -/
def countsToString (c : LCounts) : List Letter :=
  (List.finRange 26).flatMap (fun i => List.replicate (c.count i) i)

/-- Source `[...new Set(list)]` (JS Set insertion order): deduplicate keeping
the first occurrence of each element. -/
def jsUnique {α : Type} [DecidableEq α] (l : List α) : List α :=
  l.foldl (fun acc w => if w ∈ acc then acc else acc ++ [w]) []

/-- Idealized letter-count sum of the subset of a word-count list selected
by the bits of a mask (bit `i` selects entry `i`).  The per-mask value
`subsetCounts[mask]` that the source's Gray-code loop `precomputeSubsets`
actually stores is the wrapped variant `maskCountsU8` below (the Gray-code
order is an O(26)-per-mask optimization and does not change the per-mask
result). -/
def maskCounts : List LCounts → Nat → LCounts
  | [], _ => 0
  | c :: cs, m => (if m % 2 = 1 then c else 0) + maskCounts cs (m / 2)

/-- Word list of the subset selected by a mask, in index order.  This is the
per-mask value `subsetWords[mask]` of `precomputeSubsets` up to the order of
words inside one subset (the source's push/splice order), which no consumer
depends on: downstream code uses only the list's members and its length. -/
def maskWords : List Word → Nat → List Word
  | [], _ => []
  | w :: ws, m => (if m % 2 = 1 then [w] else []) ++ maskWords ws (m / 2)

/-- The pair of per-mask tables handed to `findOneConstruction`: in the source
these are the arrays `subsetCounts` / `subsetWords` plus their length. -/
structure SubsetTables where
  counts : Nat → LCounts
  words : Nat → List Word
  numMasks : Nat

/-- One iteration of the source's mask loop in `findOneConstruction`
(gameState.js lines 455-493), over idealized counts (`tryMaskU8` below is
the byte-accurate variant): check the subset against the target counts,
check the remainder against the loose letters, check the block floor and the
letters-only-anagram guard, and emit `wordsUsed ++ remainder letters`. -/
def tryMask (tc avail : LCounts) (wordCounts : List LCounts) (t : SubsetTables)
    (m : Nat) : Option (List Word) :=
  if t.counts m ≤ tc then
    if tc - t.counts m ≤ avail then
      if 2 ≤ (t.words m).length + Multiset.card (tc - t.counts m) then
        if (t.words m).length = 0 ∧ 0 < Multiset.card (tc - t.counts m) ∧
            wordCounts.any (fun wc => wc = tc - t.counts m)
        then none
        else some (t.words m ++ (countsToString (tc - t.counts m)).map (fun l => [l]))
      else none
    else none
  else none

/-- The source's `for (mask = numMasks - 1; mask >= 0; mask--)` scan:
`maskScan ... n` tries masks `n-1, n-2, ..., 0` and returns the first hit. -/
def maskScan (tc avail : LCounts) (wordCounts : List LCounts) (t : SubsetTables) :
    Nat → Option (List Word)
  | 0 => none
  | n + 1 =>
    match tryMask tc avail wordCounts t n with
    | some c => some c
    | none => maskScan tc avail wordCounts t n

/-- Source `findOneConstruction` (gameState.js lines 427-495) over
idealized counts (`findOneConstructionU8` below is the byte-accurate
variant).  The unused `poolCounts` parameter of the source is dropped;
`target` enters only through its resolved count vector `tc`.  First the
letters-only fast path (formable from loose letters alone, at least 2
letters, not an anagram of a single player word), then the high-to-low
mask scan. -/
def findOneConstruction (playerWordsUnique : List Word) (avail : LCounts)
    (wordCounts : List LCounts) (tc : LCounts) (t : SubsetTables) :
    Option (List Word) :=
  if tc ≤ avail ∧ 2 ≤ Multiset.card tc ∧
      ¬(0 < playerWordsUnique.length ∧ wordCounts.any (fun wc => wc = tc)) then
    some ((countsToString tc).map (fun l => [l]))
  else
    maskScan tc avail wordCounts t t.numMasks

/-- The per-mask tables of `precomputeSubsets` for a unique-word list. -/
def precomputeTables (ws : List Word) : SubsetTables :=
  { counts := maskCounts (ws.map letterCounts)
    words := maskWords ws
    numMasks := 2 ^ ws.length }

/-- The mutable subset cache of the source (`subsetCache` in worker.js,
written by `processGameState`): signature (sorted unique words), the per-mask
arrays (as functions plus their length `numMasks`), and the unique word list
with its precomputed counts. -/
structure SubsetCache where
  signature : List Word
  subsetCounts : Nat → LCounts
  subsetWords : Nat → List Word
  numMasks : Nat
  playerWordsUnique : List Word
  playerWordCounts : List LCounts

/-- Lexicographic (JS string) order on normalized words, used only to build
the cache signature. -/
def wordLE : Word → Word → Bool
  | [], _ => true
  | _ :: _, [] => false
  | a :: as, b :: bs => if a < b then true else if b < a then false else wordLE as bs

/-- Insertion used by `sortWords`. -/
def insortWord (w : Word) : List Word → List Word
  | [] => [w]
  | x :: xs => if wordLE w x then w :: x :: xs else x :: insortWord w xs

/-- Sorted copy of a word list (the source's `.slice().sort()` on the unique
word list; the particular sorting algorithm is immaterial for a sorted
signature). -/
def sortWords (l : List Word) : List Word := l.foldr insortWord []

/-- The cache-resolution block of `processGameState` (gameState.js lines
582-638).  Returns the unique word list and word counts actually used for the
construction search, the subset tables, and the cache as written back.
* extension path (`canExtend`): the snapshot's unique words are the cached
  ones plus exactly one new word; masks below `numMasks` are taken from the
  cache unchanged and higher masks add the new word (the source's
  `mask & (numMasksOld - 1)` is `mask % numMasksOld` for a power of two).
* reuse path: signature unchanged, cache tables used as they are.
* otherwise: cold rebuild via `precomputeSubsets`. -/
def resolveCache (cache : Option SubsetCache) (fullUnique : List Word) :
    (List Word × List LCounts) × SubsetTables × SubsetCache :=
  let signature := sortWords fullUnique
  let rebuild : (List Word × List LCounts) × SubsetTables × SubsetCache :=
    let t := precomputeTables fullUnique
    let wcs := fullUnique.map letterCounts
    ((fullUnique, wcs), t,
      ⟨signature, t.counts, t.words, t.numMasks, fullUnique, wcs⟩)
  match cache with
  | none => rebuild
  | some c =>
    let nNew := fullUnique.length
    let nOld := c.playerWordsUnique.length
    let newWord? :=
      if nNew = nOld + 1 then
        fullUnique.find? (fun w => decide (w ∉ c.playerWordsUnique))
      else none
    match newWord? with
    | some nw =>
      if fullUnique.all (fun w => decide (w = nw ∨ w ∈ c.playerWordsUnique)) then
        let nwc := letterCounts nw
        let numMasksOld := 2 ^ c.playerWordsUnique.length
        let numMasksNew := 2 ^ fullUnique.length
        let counts2 := fun m =>
          if m < numMasksOld then c.subsetCounts m
          else c.subsetCounts (m % numMasksOld) + nwc
        let words2 := fun m =>
          if m < numMasksOld then c.subsetWords m
          else c.subsetWords (m % numMasksOld) ++ [nw]
        let ws2 := c.playerWordsUnique ++ [nw]
        let wcs2 := c.playerWordCounts ++ [nwc]
        ((ws2, wcs2), ⟨counts2, words2, numMasksNew⟩,
          ⟨signature, counts2, words2, numMasksNew, ws2, wcs2⟩)
      else if c.signature = signature then
        ((c.playerWordsUnique, c.playerWordCounts),
          ⟨c.subsetCounts, c.subsetWords, c.numMasks⟩, c)
      else rebuild
    | none =>
      if c.signature = signature then
        ((c.playerWordsUnique, c.playerWordCounts),
          ⟨c.subsetCounts, c.subsetWords, c.numMasks⟩, c)
      else rebuild

/-- A normalized game payload (`normalizeGameData`'s output shape): per-player
word lists and the loose letters. -/
structure GamePayload where
  wordsPerPlayer : List (List Word)
  availableLetters : Word
  deriving DecidableEq

/-- One entry of the returned `recommended_words` / `lettersToSteal` maps:
the target word, its recorded construction, and the stored
`lettersToSteal[word] = construction.filter(b => b.length === 1).length`. -/
structure RecEntry where
  word : Word
  construction : List Word
  steal : Nat
  deriving DecidableEq

/-- Result of `processGameState`: echoed players, the recommendation entries
in dictionary-iteration order, and the echoed normalized loose letters. -/
structure GameResult where
  players : List (List Word)
  recommended : List RecEntry
  availableLetters : Word
  deriving DecidableEq

/-- The candidate guards of the dictionary loop in `processGameState`
(gameState.js lines 662-667): length at least `MIN_WORD_LENGTH = 3`, length
at most the pool total, first letter present in the pool, and the whole word
formable from the pool. -/
def candidateOK (poolCounts : LCounts) (totalPool : Nat) (word : Word) : Prop :=
  3 ≤ word.length ∧ word.length ≤ totalPool ∧
    0 < poolCounts.count word.headI ∧ letterCounts word ≤ poolCounts

instance (poolCounts : LCounts) (totalPool : Nat) (word : Word) :
    Decidable (candidateOK poolCounts totalPool word) := by
  unfold candidateOK; infer_instance

/-- Idealized `processGameState` (gameState.js lines 559-690) over
unbounded counts, without the optional `(first letter, length)` dictionary
index: candidates are then all dictionary indices, and each candidate still
passes the identical in-loop guards.  The byte-accurate embedding of the
source is `processGameStateFullU8` below; the two agree whenever no count
wraps.  Returns the result together with the subset cache as written
back. -/
def processGameStateFull (payload : GamePayload) (dict : List Word)
    (cache : Option SubsetCache) : GameResult × SubsetCache :=
  let availableCounts := letterCounts payload.availableLetters
  let allPlayerWords := payload.wordsPerPlayer.flatten.filter (fun w => decide (w ≠ []))
  let poolCounts := availableCounts + (allPlayerWords.map letterCounts).sum
  let playerWordsUniqueFull := jsUnique allPlayerWords
  let totalPool := Multiset.card poolCounts
  let resolved := resolveCache cache playerWordsUniqueFull
  let playerWordsUnique := resolved.1.1
  let wordCounts := resolved.1.2
  let t := resolved.2.1
  let recommended := dict.filterMap (fun word =>
    if candidateOK poolCounts totalPool word then
      (findOneConstruction playerWordsUnique availableCounts wordCounts
          (letterCounts word) t).map (fun c =>
        ⟨word, c, (c.filter (fun b => decide (b.length = 1))).length⟩)
    else none)
  (⟨payload.wordsPerPlayer, recommended, payload.availableLetters⟩, resolved.2.2)

/-- `processGameState` as observed by callers (the returned result object). -/
def processGameState (payload : GamePayload) (dict : List Word)
    (cache : Option SubsetCache) : GameResult :=
  (processGameStateFull payload dict cache).1

/-- The flattened, normalization-surviving player words of a payload
(`allPlayerWords` in the source: empty normalized words are dropped). -/
def allPlayerWordsOf (payload : GamePayload) : List Word :=
  payload.wordsPerPlayer.flatten.filter (fun w => decide (w ≠ []))

/-- The deduplicated player words (`playerWordsUniqueFull` in the source). -/
def uniqueWordsOf (payload : GamePayload) : List Word :=
  jsUnique (allPlayerWordsOf payload)

/-- The loose-letter counts of a payload (`availableCounts` in the source). -/
def availCountsOf (payload : GamePayload) : LCounts :=
  letterCounts payload.availableLetters

/-- The full pool counts of a payload (`poolCounts` in the source). -/
def poolCountsOf (payload : GamePayload) : LCounts :=
  availCountsOf payload + ((allPlayerWordsOf payload).map letterCounts).sum

/-!
Byte-accurate count vectors.  The `LCounts` layer above is the
letter-multiset abstraction in which the specification's properties are
phrased, but the source's `Uint8Array(26)` arithmetic wraps every store
modulo 256: `counts[i]++` in `letterCounts`, `poolCounts[i] += wc[i]` in
`processGameState`, `out[i] = a[i] + b[i]` in `mergeCounts`, and the
Gray-code accumulator of `precomputeSubsets`.  The definitions below are
the byte-accurate embedding of the construction engine; theorems about
`processGameState` are stated over this layer, and the `LCounts` layer
serves as a proof abstraction wherever the counts provably stay below
256. -/

/-- The value of a `Uint8Array(26)`: entries are kept inside `[0, 256)` by
wrapping every store modulo 256, exactly as the typed array does. -/
abbrev BCounts := Fin 26 → Nat

/-- A zeroed `new Uint8Array(26)`. -/
def bZero : BCounts := fun _ => 0

/-- One `counts[idx]++` store into a `Uint8Array`. -/
def bIncr (c : BCounts) (l : Letter) : BCounts :=
  fun j => if j = l then (c j + 1) % 256 else c j

/-- Source `letterCounts` (gameState.js) with its true `Uint8Array(26)`
semantics: one wrapping increment per occurrence. -/
def letterCountsU8 (w : Word) : BCounts := w.foldl bIncr bZero

/-- Source `sumCounts`: an ordinary JS-number sum of the 26 entries (the
bytes are read back as numbers; the sum itself does not wrap). -/
def bSum (c : BCounts) : Nat := ((List.finRange 26).map c).sum

/-- Source `canFormFromCounts(avail, need)` is `bLE need avail`: pointwise
comparison of the 26 entries. -/
def bLE (a b : BCounts) : Bool :=
  (List.finRange 26).all (fun i => decide (a i ≤ b i))

/-- Source `countsEqual`. -/
def bEq (a b : BCounts) : Bool :=
  (List.finRange 26).all (fun i => decide (a i = b i))

/-- Source `mergeCounts` and the `+=` accumulation into a `Uint8Array`:
pointwise add, each store wrapping modulo 256. -/
def bAdd (a b : BCounts) : BCounts := fun i => (a i + b i) % 256

/-- Source `subtractCounts` / the remainder buffer
`Math.max(0, a[i] - b[i])`: the clamped difference of two bytes is a byte,
so the store never wraps (truncated `Nat` subtraction). -/
def bSub (a b : BCounts) : BCounts := fun i => a i - b i

/-- Source `countsToString` reading the byte entries. -/
def countsToStringU8 (c : BCounts) : List Letter :=
  (List.finRange 26).flatMap (fun i => List.replicate (c i) i)

/-- Byte-accurate per-mask subset counts (bit `i` of the mask selects entry
`i`): the value `subsetCounts[mask]` built by `precomputeSubsets`, whose
Gray-code loop adds and subtracts byte vectors inside a `Uint8Array`.
Wrapped add/subtract is the group structure of `(ℤ/256)^26`, so the stored
per-mask value is the wrapped sum of the selected vectors, independent of
the Gray-code path this sum is accumulated along. -/
def maskCountsU8 : List BCounts → Nat → BCounts
  | [], _ => bZero
  | c :: cs, m => bAdd (if m % 2 = 1 then c else bZero) (maskCountsU8 cs (m / 2))

/-- Byte-level subset tables handed to `findOneConstruction`. -/
structure SubsetTablesU8 where
  counts : Nat → BCounts
  words : Nat → List Word
  numMasks : Nat

/-- One iteration of the mask loop of the source's `findOneConstruction`,
byte-accurate (the structure mirrors `tryMask` above). -/
def tryMaskU8 (tc avail : BCounts) (wordCounts : List BCounts)
    (t : SubsetTablesU8) (m : Nat) : Option (List Word) :=
  if bLE (t.counts m) tc then
    if bLE (bSub tc (t.counts m)) avail then
      if 2 ≤ (t.words m).length + bSum (bSub tc (t.counts m)) then
        if (t.words m).length = 0 ∧ 0 < bSum (bSub tc (t.counts m)) ∧
            wordCounts.any (fun wc => bEq wc (bSub tc (t.counts m)))
        then none
        else some (t.words m ++
          (countsToStringU8 (bSub tc (t.counts m))).map (fun l => [l]))
      else none
    else none
  else none

/-- The descending mask scan, byte-accurate. -/
def maskScanU8 (tc avail : BCounts) (wordCounts : List BCounts)
    (t : SubsetTablesU8) : Nat → Option (List Word)
  | 0 => none
  | n + 1 =>
    match tryMaskU8 tc avail wordCounts t n with
    | some c => some c
    | none => maskScanU8 tc avail wordCounts t n

/-- Source `findOneConstruction`, byte-accurate (compare the `LCounts`
version above for the shared structure). -/
def findOneConstructionU8 (playerWordsUnique : List Word) (avail : BCounts)
    (wordCounts : List BCounts) (tc : BCounts) (t : SubsetTablesU8) :
    Option (List Word) :=
  if bLE tc avail ∧ 2 ≤ bSum tc ∧
      ¬(0 < playerWordsUnique.length ∧ wordCounts.any (fun wc => bEq wc tc)) then
    some ((countsToStringU8 tc).map (fun l => [l]))
  else
    maskScanU8 tc avail wordCounts t t.numMasks

/-- Byte-level tables of `precomputeSubsets`. -/
def precomputeTablesU8 (ws : List Word) : SubsetTablesU8 :=
  { counts := maskCountsU8 (ws.map letterCountsU8)
    words := maskWords ws
    numMasks := 2 ^ ws.length }

/-- The mutable subset cache, byte-accurate. -/
structure SubsetCacheU8 where
  signature : List Word
  subsetCounts : Nat → BCounts
  subsetWords : Nat → List Word
  numMasks : Nat
  playerWordsUnique : List Word
  playerWordCounts : List BCounts

/-- The cache-resolution block of `processGameState`, byte-accurate
(compare `resolveCache`; the extension path's `mergeCounts` is the
wrapping add `bAdd`). -/
def resolveCacheU8 (cache : Option SubsetCacheU8) (fullUnique : List Word) :
    (List Word × List BCounts) × SubsetTablesU8 × SubsetCacheU8 :=
  let signature := sortWords fullUnique
  let rebuild : (List Word × List BCounts) × SubsetTablesU8 × SubsetCacheU8 :=
    let t := precomputeTablesU8 fullUnique
    let wcs := fullUnique.map letterCountsU8
    ((fullUnique, wcs), t,
      ⟨signature, t.counts, t.words, t.numMasks, fullUnique, wcs⟩)
  match cache with
  | none => rebuild
  | some c =>
    let nNew := fullUnique.length
    let nOld := c.playerWordsUnique.length
    let newWord? :=
      if nNew = nOld + 1 then
        fullUnique.find? (fun w => decide (w ∉ c.playerWordsUnique))
      else none
    match newWord? with
    | some nw =>
      if fullUnique.all (fun w => decide (w = nw ∨ w ∈ c.playerWordsUnique)) then
        let nwc := letterCountsU8 nw
        let numMasksOld := 2 ^ c.playerWordsUnique.length
        let numMasksNew := 2 ^ fullUnique.length
        let counts2 := fun m =>
          if m < numMasksOld then c.subsetCounts m
          else bAdd (c.subsetCounts (m % numMasksOld)) nwc
        let words2 := fun m =>
          if m < numMasksOld then c.subsetWords m
          else c.subsetWords (m % numMasksOld) ++ [nw]
        let ws2 := c.playerWordsUnique ++ [nw]
        let wcs2 := c.playerWordCounts ++ [nwc]
        ((ws2, wcs2), ⟨counts2, words2, numMasksNew⟩,
          ⟨signature, counts2, words2, numMasksNew, ws2, wcs2⟩)
      else if c.signature = signature then
        ((c.playerWordsUnique, c.playerWordCounts),
          ⟨c.subsetCounts, c.subsetWords, c.numMasks⟩, c)
      else rebuild
    | none =>
      if c.signature = signature then
        ((c.playerWordsUnique, c.playerWordCounts),
          ⟨c.subsetCounts, c.subsetWords, c.numMasks⟩, c)
      else rebuild

/-- The candidate guards of the dictionary loop, byte-accurate: the length
floor, length at most the byte-sum of the pool, first letter present in the
pool bytes, and formability from the pool bytes. -/
def candidateOKU8 (poolCounts : BCounts) (totalPool : Nat) (word : Word) : Prop :=
  3 ≤ word.length ∧ word.length ≤ totalPool ∧
    0 < poolCounts word.headI ∧ bLE (letterCountsU8 word) poolCounts

instance (poolCounts : BCounts) (totalPool : Nat) (word : Word) :
    Decidable (candidateOKU8 poolCounts totalPool word) := by
  unfold candidateOKU8; infer_instance

/-- Source `processGameState` with its true byte arithmetic: the pool is
accumulated with wrapping stores (`poolCounts[i] += wc[i]`), and every
count vector downstream is a byte vector. -/
def processGameStateFullU8 (payload : GamePayload) (dict : List Word)
    (cache : Option SubsetCacheU8) : GameResult × SubsetCacheU8 :=
  let availableCounts := letterCountsU8 payload.availableLetters
  let allPlayerWords := payload.wordsPerPlayer.flatten.filter (fun w => decide (w ≠ []))
  let poolCounts := (allPlayerWords.map letterCountsU8).foldl bAdd availableCounts
  let playerWordsUniqueFull := jsUnique allPlayerWords
  let totalPool := bSum poolCounts
  let resolved := resolveCacheU8 cache playerWordsUniqueFull
  let playerWordsUnique := resolved.1.1
  let wordCounts := resolved.1.2
  let t := resolved.2.1
  let recommended := dict.filterMap (fun word =>
    if candidateOKU8 poolCounts totalPool word then
      (findOneConstructionU8 playerWordsUnique availableCounts wordCounts
          (letterCountsU8 word) t).map (fun c =>
        ⟨word, c, (c.filter (fun b => decide (b.length = 1))).length⟩)
    else none)
  (⟨payload.wordsPerPlayer, recommended, payload.availableLetters⟩, resolved.2.2)

/-- Byte-accurate `processGameState` as observed by callers. -/
def processGameStateU8 (payload : GamePayload) (dict : List Word)
    (cache : Option SubsetCacheU8) : GameResult :=
  (processGameStateFullU8 payload dict cache).1

/-- The byte-level loose-letter counts of a payload. -/
def availCountsU8Of (payload : GamePayload) : BCounts :=
  letterCountsU8 payload.availableLetters

/-- The byte-level pool counts of a payload. -/
def poolCountsU8Of (payload : GamePayload) : BCounts :=
  ((allPlayerWordsOf payload).map letterCountsU8).foldl bAdd
    (availCountsU8Of payload)

theorem processGameStateU8_recommended (payload : GamePayload) (dict : List Word)
    (cache : Option SubsetCacheU8) :
    (processGameStateU8 payload dict cache).recommended =
      dict.filterMap (fun word =>
        if candidateOKU8 (poolCountsU8Of payload) (bSum (poolCountsU8Of payload)) word then
          (findOneConstructionU8 (resolveCacheU8 cache (uniqueWordsOf payload)).1.1
              (availCountsU8Of payload) (resolveCacheU8 cache (uniqueWordsOf payload)).1.2
              (letterCountsU8 word) (resolveCacheU8 cache (uniqueWordsOf payload)).2.1).map
            (fun c => ⟨word, c, (c.filter (fun b => decide (b.length = 1))).length⟩)
        else none) := rfl

theorem processGameState_recommended (payload : GamePayload) (dict : List Word)
    (cache : Option SubsetCache) :
    (processGameState payload dict cache).recommended =
      dict.filterMap (fun word =>
        if candidateOK (poolCountsOf payload) (Multiset.card (poolCountsOf payload)) word then
          (findOneConstruction (resolveCache cache (uniqueWordsOf payload)).1.1
              (availCountsOf payload) (resolveCache cache (uniqueWordsOf payload)).1.2
              (letterCounts word) (resolveCache cache (uniqueWordsOf payload)).2.1).map
            (fun c => ⟨word, c, (c.filter (fun b => decide (b.length = 1))).length⟩)
        else none) := rfl

theorem coe_flatMap {α β : Type} (f : α → List β) (l : List α) :
    ((l.flatMap f : List β) : Multiset β) =
      (l.map (fun a => ((f a : List β) : Multiset β))).sum := by
  induction l with
  | nil => rfl
  | cons a l ih =>
    simp only [List.flatMap_cons, List.map_cons, List.sum_cons, ← ih, ← Multiset.coe_add]

theorem coe_countsToString (c : LCounts) :
    ((countsToString c : List Letter) : Multiset Letter) = c := by
  unfold countsToString
  rw [coe_flatMap]
  have h1 : ∀ i : Letter,
      ((List.replicate (c.count i) i : List Letter) : Multiset Letter) =
        c.count i • ({i} : Multiset Letter) := by
    intro i; rw [Multiset.coe_replicate, Multiset.nsmul_singleton]
  calc ((List.finRange 26).map
        (fun i => ((List.replicate (c.count i) i : List Letter) : Multiset Letter))).sum
      = ((List.finRange 26).map (fun i => c.count i • ({i} : Multiset Letter))).sum := by
        simp only [h1]
    _ = ∑ i ∈ Finset.univ, c.count i • ({i} : Multiset Letter) := by
        rw [Fin.univ_def]; rfl
    _ = ∑ i ∈ c.toFinset, c.count i • ({i} : Multiset Letter) := by
        refine (Finset.sum_subset (Finset.subset_univ _) ?_).symm
        intro x _ hx
        rw [Multiset.count_eq_zero_of_not_mem (by simpa using hx)]
        simp
    _ = c := Multiset.toFinset_sum_count_nsmul_eq c

theorem length_countsToString (c : LCounts) :
    (countsToString c).length = Multiset.card c := by
  have := congrArg Multiset.card (coe_countsToString c)
  simpa using this

theorem singles_counts_sum (c : LCounts) :
    (((countsToString c).map (fun l => ([l] : Word))).map letterCounts).sum = c := by
  rw [List.map_map]
  have h : (letterCounts ∘ fun l => ([l] : Word)) = fun l => ({l} : Multiset Letter) := rfl
  rw [h]
  calc ((countsToString c).map (fun l => ({l} : Multiset Letter))).sum
      = ((countsToString c : List Letter) : Multiset Letter) := by
        induction countsToString c with
        | nil => rfl
        | cons a l ih => simp only [List.map_cons, List.sum_cons, ih, ← Multiset.cons_coe,
            ← Multiset.singleton_add]
    _ = c := coe_countsToString c

theorem maskWords_sublist (ws : List Word) (m : Nat) : (maskWords ws m).Sublist ws := by
  induction ws generalizing m with
  | nil => simp [maskWords]
  | cons w ws ih =>
    unfold maskWords
    by_cases h : m % 2 = 1
    · simpa [h] using (ih (m / 2)).cons_cons w
    · simpa [h] using (ih (m / 2)).cons w

theorem sum_maskWords (ws : List Word) (m : Nat) :
    ((maskWords ws m).map letterCounts).sum = maskCounts (ws.map letterCounts) m := by
  induction ws generalizing m with
  | nil => rfl
  | cons w ws ih =>
    unfold maskWords maskCounts
    by_cases h : m % 2 = 1 <;> simp [h, ih]

theorem maskWords_nil_counts (ws : List Word) (m : Nat)
    (h : maskWords ws m = []) : maskCounts (ws.map letterCounts) m = 0 := by
  rw [← sum_maskWords, h]; rfl

/-- What a successful `tryMask` tells us. -/
theorem tryMask_eq_some (tc avail : LCounts) (wordCounts : List LCounts)
    (t : SubsetTables) (m : Nat) (c : List Word)
    (h : tryMask tc avail wordCounts t m = some c) :
    t.counts m ≤ tc ∧ (tc - t.counts m) ≤ avail ∧
      2 ≤ (t.words m).length + Multiset.card (tc - t.counts m) ∧
      ¬((t.words m).length = 0 ∧ 0 < Multiset.card (tc - t.counts m) ∧
          wordCounts.any (fun wc => wc = (tc - t.counts m))) ∧
      c = t.words m ++ (countsToString (tc - t.counts m)).map (fun l => ([l] : Word)) := by
  unfold tryMask at h
  split_ifs at h with h1 h2 h3 h4
  exact ⟨h1, h2, h3, h4, (Option.some.inj h).symm⟩

theorem maskScan_eq_some (tc avail : LCounts) (wordCounts : List LCounts)
    (t : SubsetTables) (n : Nat) (c : List Word)
    (h : maskScan tc avail wordCounts t n = some c) :
    ∃ m < n, tryMask tc avail wordCounts t m = some c := by
  induction n with
  | zero => exact absurd h (by simp [maskScan])
  | succ n ih =>
    unfold maskScan at h
    rcases h2 : tryMask tc avail wordCounts t n with _ | c2
    · rw [h2] at h
      obtain ⟨m, hm, hh⟩ := ih h
      exact ⟨m, Nat.lt_succ_of_lt hm, hh⟩
    · rw [h2] at h
      cases h
      exact ⟨n, Nat.lt_succ_self n, h2⟩

/-- Decomposition of any construction produced by `findOneConstruction` when
run against the cold (freshly precomputed) subset tables of a unique word
list: the blocks are a sublist `wu` of the player words followed by the
single letters of the remainder, the remainder fits inside the loose letters,
the block floor holds, and the letters-only-anagram guard was honoured. -/
theorem cold_construction_shape (ws : List Word) (avail tc : LCounts) (c : List Word)
    (h : findOneConstruction ws avail (ws.map letterCounts) tc (precomputeTables ws) =
      some c) :
    ∃ wu rem, wu.Sublist ws ∧ (wu.map letterCounts).sum ≤ tc ∧
      rem = tc - (wu.map letterCounts).sum ∧ rem ≤ avail ∧
      2 ≤ wu.length + Multiset.card rem ∧
      c = wu ++ (countsToString rem).map (fun l => ([l] : Word)) ∧
      (wu = [] → 0 < Multiset.card rem →
        ¬∃ wc ∈ ws.map letterCounts, wc = rem) := by
  unfold findOneConstruction at h
  split_ifs at h with hfast
  · obtain ⟨h1, h2, h3⟩ := hfast
    cases h
    refine ⟨[], tc, List.nil_sublist ws, ?_, ?_, h1, by simpa using h2, rfl, ?_⟩
    · simp
    · simp
    · intro _ hcard hex
      apply h3
      obtain ⟨wc, hwc, hwceq⟩ := hex
      constructor
      · rcases ws with _ | ⟨a, l⟩
        · simp at hwc
        · simp
      · rw [List.any_eq_true]
        exact ⟨wc, hwc, by simpa using hwceq⟩
  · obtain ⟨m, _, hm⟩ := maskScan_eq_some _ _ _ _ _ _ h
    obtain ⟨h1, h2, h3, h4, h5⟩ := tryMask_eq_some _ _ _ _ _ _ hm
    refine ⟨maskWords ws m, tc - maskCounts (ws.map letterCounts) m, maskWords_sublist ws m,
      ?_, ?_, ?_, ?_, ?_, ?_⟩
    · rw [sum_maskWords]
      exact h1
    · rw [sum_maskWords]
    · exact h2
    · exact h3
    · exact h5
    · intro hnil hcard hex
      apply h4
      refine ⟨by simpa using congrArg List.length hnil, hcard, ?_⟩
      rw [List.any_eq_true]
      obtain ⟨wc, hwc, hwceq⟩ := hex
      exact ⟨wc, hwc, by simpa using hwceq⟩

theorem mem_foldl_dedup {α : Type} [DecidableEq α] (l : List α) (acc : List α) (x : α) :
    x ∈ l.foldl (fun acc w => if w ∈ acc then acc else acc ++ [w]) acc ↔
      x ∈ acc ∨ x ∈ l := by
  induction l generalizing acc with
  | nil => simp
  | cons a l ih =>
    simp only [List.foldl_cons]
    rw [ih]
    by_cases h : a ∈ acc
    · simp only [if_pos h, List.mem_cons]
      constructor
      · rintro (hx | hx)
        · exact Or.inl hx
        · exact Or.inr (Or.inr hx)
      · rintro (hx | hx | hx)
        · exact Or.inl hx
        · exact Or.inl (hx ▸ h)
        · exact Or.inr hx
    · simp only [if_neg h, List.mem_append, List.mem_singleton, List.mem_cons]
      tauto

theorem jsUnique_mem {α : Type} [DecidableEq α] (l : List α) (x : α) :
    x ∈ jsUnique l ↔ x ∈ l := by
  unfold jsUnique
  rw [mem_foldl_dedup]
  simp

theorem mem_allPlayerWords (payload : GamePayload) (w : Word) :
    w ∈ allPlayerWordsOf payload ↔ w ∈ payload.wordsPerPlayer.flatten ∧ w ≠ [] := by
  simp only [allPlayerWordsOf, List.mem_filter, decide_eq_true_eq, ne_eq]

/-- Membership elimination for the recommendation list of a cold
(`cache = none`) run of `processGameState`. -/
theorem mem_recommended_cold (payload : GamePayload) (dict : List Word) (e : RecEntry)
    (he : e ∈ (processGameState payload dict none).recommended) :
    ∃ word ∈ dict,
      candidateOK (poolCountsOf payload) (Multiset.card (poolCountsOf payload)) word ∧
      ∃ c, findOneConstruction (uniqueWordsOf payload) (availCountsOf payload)
          ((uniqueWordsOf payload).map letterCounts) (letterCounts word)
          (precomputeTables (uniqueWordsOf payload)) = some c ∧
        e = ⟨word, c, (c.filter (fun b => decide (b.length = 1))).length⟩ := by
  rw [processGameState_recommended, List.mem_filterMap] at he
  obtain ⟨word, hword, hf⟩ := he
  split_ifs at hf with hc
  obtain ⟨c, hcs, hce⟩ := Option.map_eq_some'.mp hf
  exact ⟨word, hword, hc, c, hcs, hce.symm⟩

theorem word_length_ge_two (payload : GamePayload)
    (hw : ∀ w ∈ payload.wordsPerPlayer.flatten, w.length ≠ 1)
    (w : Word) (hmem : w ∈ allPlayerWordsOf payload) : 2 ≤ w.length := by
  rw [mem_allPlayerWords] at hmem
  have h1 := hw w hmem.1
  have h2 : w.length ≠ 0 := by
    intro h0
    exact hmem.2 (List.length_eq_zero.mp h0)
  omega

theorem card_sum_counts (l : List LCounts) :
    Multiset.card l.sum = (l.map Multiset.card).sum := by
  induction l with
  | nil => rfl
  | cons a l ih => simp [ih]

theorem filter_len_one_map (cs : List Word) :
    ((cs.map List.length).filter fun x => decide (x = 1)).length =
      (cs.filter fun b => decide (b.length = 1)).length := by
  induction cs with
  | nil => rfl
  | cons b cs ih =>
    by_cases hb : b.length = 1 <;> simp [List.filter_cons, hb, ih]

theorem count_ones_le_sum (l : List Nat) (h : ∀ x ∈ l, 1 ≤ x) :
    (l.filter fun x => decide (x = 1)).length ≤ l.sum := by
  induction l with
  | nil => simp
  | cons a l ih =>
    have ha := h a (List.mem_cons_self a l)
    have ihh := ih (fun x hx => h x (List.mem_cons_of_mem a hx))
    by_cases h1 : a = 1
    · rw [List.filter_cons, if_pos (by simpa using h1), List.length_cons, List.sum_cons]
      omega
    · rw [List.filter_cons, if_neg (by simpa using h1), List.sum_cons]
      omega

/-- The byte image of an ideal count vector: each per-letter count reduced
modulo 256. -/
def bOf (c : LCounts) : BCounts := fun i => c.count i % 256

/-- No entry of an ideal count vector reaches the wrap threshold 256. -/
def noWrap (c : LCounts) : Prop := ∀ i, c.count i < 256

theorem bOf_apply (c : LCounts) (h : noWrap c) (i : Letter) : bOf c i = c.count i :=
  Nat.mod_eq_of_lt (h i)

theorem bOf_zero : bOf 0 = bZero := by
  funext i
  simp [bOf, bZero]

theorem bOf_add (a b : LCounts) : bOf (a + b) = bAdd (bOf a) (bOf b) := by
  funext i
  simp [bOf, bAdd, Multiset.count_add, Nat.add_mod]

theorem foldl_bIncr_apply (w : Word) : ∀ (acc : BCounts), (∀ j, acc j < 256) →
    ∀ i, (w.foldl bIncr acc) i = (acc i + w.count i) % 256 := by
  induction w with
  | nil =>
    intro acc hacc i
    simp [Nat.mod_eq_of_lt (hacc i)]
  | cons a w ih =>
    intro acc hacc i
    rw [List.foldl_cons]
    have hacc2 : ∀ j, bIncr acc a j < 256 := by
      intro j
      unfold bIncr
      by_cases hj : j = a
      · rw [if_pos hj]
        exact Nat.mod_lt _ (by norm_num)
      · rw [if_neg hj]
        exact hacc j
    rw [ih (bIncr acc a) hacc2 i]
    unfold bIncr
    by_cases hi : i = a
    · rw [if_pos hi, Nat.mod_add_mod]
      have hc : (a :: w).count i = w.count i + 1 := by
        subst hi
        simp [List.count_cons]
      rw [hc]
      congr 1
      omega
    · rw [if_neg hi]
      have hc : (a :: w).count i = w.count i := by
        simp [List.count_cons, Ne.symm hi]
      rw [hc]

theorem letterCountsU8_eq (w : Word) : letterCountsU8 w = bOf (letterCounts w) := by
  funext i
  unfold letterCountsU8
  rw [foldl_bIncr_apply w bZero (fun j => by norm_num [bZero]) i]
  simp [bZero, bOf, letterCounts]

theorem letterCountsU8_fun : letterCountsU8 = bOf ∘ letterCounts :=
  funext letterCountsU8_eq

theorem maskCountsU8_bOf (l : List LCounts) (m : Nat) :
    maskCountsU8 (l.map bOf) m = bOf (maskCounts l m) := by
  induction l generalizing m with
  | nil => simp [maskCountsU8, maskCounts, bOf_zero]
  | cons c l ih =>
    show bAdd (if m % 2 = 1 then bOf c else bZero) (maskCountsU8 (l.map bOf) (m / 2)) =
      bOf ((if m % 2 = 1 then c else 0) + maskCounts l (m / 2))
    rw [ih (m / 2), bOf_add]
    by_cases h : m % 2 = 1
    · rw [if_pos h, if_pos h]
    · rw [if_neg h, if_neg h, bOf_zero]

theorem maskCountsU8_letterCounts (ws : List Word) (m : Nat) :
    maskCountsU8 (ws.map letterCountsU8) m = bOf (maskCounts (ws.map letterCounts) m) := by
  rw [letterCountsU8_fun, ← List.map_map, maskCountsU8_bOf]

theorem bLE_bOf (a b : LCounts) (ha : noWrap a) (hb : noWrap b) :
    bLE (bOf a) (bOf b) = true ↔ a ≤ b := by
  unfold bLE
  rw [List.all_eq_true]
  constructor
  · intro h
    rw [Multiset.le_iff_count]
    intro i
    have h2 := h i (List.mem_finRange i)
    rw [bOf_apply a ha i, bOf_apply b hb i] at h2
    exact of_decide_eq_true h2
  · intro h i _
    rw [bOf_apply a ha i, bOf_apply b hb i]
    exact decide_eq_true (Multiset.le_iff_count.mp h i)

theorem bEq_bOf (a b : LCounts) (ha : noWrap a) (hb : noWrap b) :
    bEq (bOf a) (bOf b) = true ↔ a = b := by
  unfold bEq
  rw [List.all_eq_true]
  constructor
  · intro h
    rw [Multiset.ext]
    intro i
    have h2 := h i (List.mem_finRange i)
    rw [bOf_apply a ha i, bOf_apply b hb i] at h2
    exact of_decide_eq_true h2
  · intro h i _
    rw [bOf_apply a ha i, bOf_apply b hb i, h]
    exact decide_eq_true rfl

theorem sum_count_card (c : LCounts) : ∑ i : Fin 26, c.count i = Multiset.card c := by
  induction c using Multiset.induction_on with
  | empty => simp
  | cons a s ih =>
    simp only [Multiset.count_cons, Multiset.card_cons]
    rw [Finset.sum_add_distrib, ih]
    have h1 : (∑ i : Fin 26, if i = a then 1 else 0) = 1 := by
      simp [Finset.sum_ite_eq']
    omega

theorem bSum_bOf (c : LCounts) (h : noWrap c) : bSum (bOf c) = Multiset.card c := by
  unfold bSum
  have h1 : (List.finRange 26).map (bOf c) =
      (List.finRange 26).map (fun i => c.count i) := by
    apply List.map_congr_left
    intro i _
    exact bOf_apply c h i
  rw [h1, ← Fin.sum_univ_def (fun i => c.count i)]
  exact sum_count_card c

theorem noWrap_of_card_lt (c : LCounts) (h : Multiset.card c < 256) : noWrap c :=
  fun i => lt_of_le_of_lt (Multiset.count_le_card i c) h

theorem noWrap_of_le {a b : LCounts} (hab : a ≤ b) (hb : noWrap b) : noWrap a :=
  fun i => lt_of_le_of_lt (Multiset.count_le_of_le i hab) (hb i)

theorem bSub_bOf (a b : LCounts) (ha : noWrap a) (hb : noWrap b) :
    bSub (bOf a) (bOf b) = bOf (a - b) := by
  funext i
  unfold bSub
  have hs : noWrap (a - b) := noWrap_of_le (tsub_le_self) ha
  rw [bOf_apply a ha i, bOf_apply b hb i, bOf_apply (a - b) hs i, Multiset.count_sub]

theorem countsToStringU8_bOf (c : LCounts) (h : noWrap c) :
    countsToStringU8 (bOf c) = countsToString c := by
  unfold countsToStringU8 countsToString
  have h2 : (fun i => List.replicate (bOf c i) i) =
      (fun i => List.replicate (c.count i) i) := by
    funext i
    rw [bOf_apply c h i]
  rw [h2]

theorem multiset_sum_mono {s t : Multiset LCounts} (h : s ≤ t) : s.sum ≤ t.sum := by
  obtain ⟨u, rfl⟩ := Multiset.le_iff_exists_add.mp h
  simp only [Multiset.sum_add]
  exact le_add_of_nonneg_right (Multiset.zero_le _)

theorem words_sum_le_pool (payload : GamePayload) {l : List Word}
    (hsub : List.Subperm l (allPlayerWordsOf payload)) :
    (l.map letterCounts).sum ≤ poolCountsOf payload := by
  have h1 : (↑(l.map letterCounts) : Multiset LCounts) ≤
      ↑((allPlayerWordsOf payload).map letterCounts) := by
    rw [← Multiset.map_coe, ← Multiset.map_coe]
    exact Multiset.map_le_map (Multiset.coe_le.mpr hsub)
  have h2 : (l.map letterCounts).sum ≤
      ((allPlayerWordsOf payload).map letterCounts).sum := by
    have h3 := multiset_sum_mono h1
    simpa using h3
  calc (l.map letterCounts).sum
      ≤ ((allPlayerWordsOf payload).map letterCounts).sum := h2
    _ ≤ poolCountsOf payload := le_add_self

theorem jsUnique_nodup {α : Type} [DecidableEq α] (l : List α) :
    (jsUnique l).Nodup := by
  have haux : ∀ (acc : List α), acc.Nodup →
      (l.foldl (fun acc w => if w ∈ acc then acc else acc ++ [w]) acc).Nodup := by
    induction l with
    | nil => intro acc h; exact h
    | cons a l ih =>
      intro acc h
      rw [List.foldl_cons]
      by_cases ha : a ∈ acc
      · rw [if_pos ha]
        exact ih acc h
      · rw [if_neg ha]
        refine ih (acc ++ [a]) ?_
        rw [List.nodup_append]
        refine ⟨h, List.nodup_singleton a, ?_⟩
        intro x hx hxa
        rw [List.mem_singleton] at hxa
        exact ha (hxa ▸ hx)
  exact haux [] List.nodup_nil

theorem uniqueWords_subperm (payload : GamePayload) :
    List.Subperm (uniqueWordsOf payload) (allPlayerWordsOf payload) :=
  List.Nodup.subperm (jsUnique_nodup _) (fun w hw => (jsUnique_mem _ w).mp hw)

theorem maskCounts_le_pool (payload : GamePayload) (m : Nat) :
    maskCounts ((uniqueWordsOf payload).map letterCounts) m ≤ poolCountsOf payload := by
  rw [← sum_maskWords]
  exact words_sum_le_pool payload
    ((maskWords_sublist _ m).subperm.trans (uniqueWords_subperm payload))

theorem letterCounts_le_pool (payload : GamePayload) {w : Word}
    (hw : w ∈ uniqueWordsOf payload) : letterCounts w ≤ poolCountsOf payload := by
  have hmem : letterCounts w ∈ (allPlayerWordsOf payload).map letterCounts :=
    List.mem_map_of_mem letterCounts ((jsUnique_mem _ w).mp hw)
  have h1 : letterCounts w ≤ ((allPlayerWordsOf payload).map letterCounts).sum :=
    List.single_le_sum (fun x _ => Multiset.zero_le x) _ hmem
  exact h1.trans le_add_self

theorem foldl_bAdd_bOf (l : List LCounts) : ∀ acc : LCounts,
    (l.map bOf).foldl bAdd (bOf acc) = bOf (acc + l.sum) := by
  induction l with
  | nil =>
    intro acc
    simp
  | cons c l ih =>
    intro acc
    rw [List.map_cons, List.foldl_cons, ← bOf_add, ih (acc + c), List.sum_cons]
    rw [add_assoc]

theorem availCountsU8_eq (payload : GamePayload) :
    availCountsU8Of payload = bOf (availCountsOf payload) := letterCountsU8_eq _

theorem poolCountsU8_eq (payload : GamePayload) :
    poolCountsU8Of payload = bOf (poolCountsOf payload) := by
  unfold poolCountsU8Of poolCountsOf
  rw [availCountsU8_eq, letterCountsU8_fun, ← List.map_map, foldl_bAdd_bOf]

/-- Byte-accurate `tryMask` equals the ideal one when the target, the loose
letters, the player word counts and the subset counts of the tried mask all
stay below the wrap threshold. -/
theorem tryMaskU8_eq (tc avail : LCounts) (wcs : List LCounts) (tb : SubsetTables)
    (m : Nat) (htc : noWrap tc) (hav : noWrap avail)
    (hwcs : ∀ wc ∈ wcs, noWrap wc) (hcnt : noWrap (tb.counts m)) :
    tryMaskU8 (bOf tc) (bOf avail) (wcs.map bOf)
      ⟨fun k => bOf (tb.counts k), tb.words, tb.numMasks⟩ m =
    tryMask tc avail wcs tb m := by
  have hrem : noWrap (tc - tb.counts m) := noWrap_of_le tsub_le_self htc
  unfold tryMaskU8 tryMask
  dsimp only
  rw [bSub_bOf tc (tb.counts m) htc hcnt, bSum_bOf _ hrem]
  have hany : ((wcs.map bOf).any (fun wc => bEq wc (bOf (tc - tb.counts m))) = true) ↔
      (wcs.any (fun wc => decide (wc = tc - tb.counts m)) = true) := by
    rw [List.any_eq_true, List.any_eq_true]
    constructor
    · rintro ⟨wc8, hwc8, hbe⟩
      obtain ⟨wc, hwc, rfl⟩ := List.mem_map.mp hwc8
      exact ⟨wc, hwc, decide_eq_true ((bEq_bOf wc _ (hwcs wc hwc) hrem).mp hbe)⟩
    · rintro ⟨wc, hwc, hde⟩
      exact ⟨bOf wc, List.mem_map_of_mem bOf hwc,
        (bEq_bOf wc _ (hwcs wc hwc) hrem).mpr (of_decide_eq_true hde)⟩
  by_cases h1 : tb.counts m ≤ tc
  · rw [if_pos h1, if_pos ((bLE_bOf _ _ hcnt htc).mpr h1)]
    by_cases h2 : tc - tb.counts m ≤ avail
    · rw [if_pos h2, if_pos ((bLE_bOf _ _ hrem hav).mpr h2)]
      by_cases h3 : 2 ≤ (tb.words m).length + Multiset.card (tc - tb.counts m)
      · rw [if_pos h3, if_pos h3]
        have hguard : ((tb.words m).length = 0 ∧
            0 < Multiset.card (tc - tb.counts m) ∧
            ((wcs.map bOf).any (fun wc => bEq wc (bOf (tc - tb.counts m))) = true)) ↔
            ((tb.words m).length = 0 ∧ 0 < Multiset.card (tc - tb.counts m) ∧
            (wcs.any (fun wc => decide (wc = tc - tb.counts m)) = true)) :=
          and_congr Iff.rfl (and_congr Iff.rfl hany)
        by_cases h4 : (tb.words m).length = 0 ∧ 0 < Multiset.card (tc - tb.counts m) ∧
            (wcs.any (fun wc => decide (wc = tc - tb.counts m)) = true)
        · rw [if_pos h4, if_pos (hguard.mpr h4)]
        · rw [if_neg h4, if_neg (fun hc => h4 (hguard.mp hc)),
            countsToStringU8_bOf _ hrem]
      · rw [if_neg h3, if_neg h3]
    · rw [if_neg h2, if_neg (fun hc => h2 ((bLE_bOf _ _ hrem hav).mp hc))]
  · rw [if_neg h1, if_neg (fun hc => h1 ((bLE_bOf _ _ hcnt htc).mp hc))]

theorem maskScanU8_eq (tc avail : LCounts) (wcs : List LCounts) (tb : SubsetTables)
    (htc : noWrap tc) (hav : noWrap avail) (hwcs : ∀ wc ∈ wcs, noWrap wc)
    (n : Nat) (hcnt : ∀ m < n, noWrap (tb.counts m)) :
    maskScanU8 (bOf tc) (bOf avail) (wcs.map bOf)
      ⟨fun k => bOf (tb.counts k), tb.words, tb.numMasks⟩ n =
    maskScan tc avail wcs tb n := by
  induction n with
  | zero => rfl
  | succ n ih =>
    unfold maskScanU8 maskScan
    rw [tryMaskU8_eq tc avail wcs tb n htc hav hwcs (hcnt n (Nat.lt_succ_self n))]
    cases tryMask tc avail wcs tb n with
    | some c => rfl
    | none => exact ih (fun m hm => hcnt m (Nat.lt_succ_of_lt hm))

theorem findOneConstructionU8_eq (ws : List Word) (avail tc : LCounts)
    (wcs : List LCounts) (tb : SubsetTables)
    (htc : noWrap tc) (hav : noWrap avail) (hwcs : ∀ wc ∈ wcs, noWrap wc)
    (hcnt : ∀ m < tb.numMasks, noWrap (tb.counts m)) :
    findOneConstructionU8 ws (bOf avail) (wcs.map bOf) (bOf tc)
      ⟨fun k => bOf (tb.counts k), tb.words, tb.numMasks⟩ =
    findOneConstruction ws avail wcs tc tb := by
  unfold findOneConstructionU8 findOneConstruction
  dsimp only
  rw [bSum_bOf _ htc]
  have hany : ((wcs.map bOf).any (fun wc => bEq wc (bOf tc)) = true) ↔
      (wcs.any (fun wc => decide (wc = tc)) = true) := by
    rw [List.any_eq_true, List.any_eq_true]
    constructor
    · rintro ⟨wc8, hwc8, hbe⟩
      obtain ⟨wc, hwc, rfl⟩ := List.mem_map.mp hwc8
      exact ⟨wc, hwc, decide_eq_true ((bEq_bOf wc _ (hwcs wc hwc) htc).mp hbe)⟩
    · rintro ⟨wc, hwc, hde⟩
      exact ⟨bOf wc, List.mem_map_of_mem bOf hwc,
        (bEq_bOf wc _ (hwcs wc hwc) htc).mpr (of_decide_eq_true hde)⟩
  have hfast : (bLE (bOf tc) (bOf avail) = true ∧ 2 ≤ Multiset.card tc ∧
      ¬(0 < ws.length ∧ ((wcs.map bOf).any (fun wc => bEq wc (bOf tc)) = true))) ↔
      (tc ≤ avail ∧ 2 ≤ Multiset.card tc ∧
        ¬(0 < ws.length ∧ (wcs.any (fun wc => decide (wc = tc)) = true))) :=
    and_congr (bLE_bOf _ _ htc hav)
      (and_congr Iff.rfl (not_congr (and_congr Iff.rfl hany)))
  by_cases hf : tc ≤ avail ∧ 2 ≤ Multiset.card tc ∧
      ¬(0 < ws.length ∧ (wcs.any (fun wc => decide (wc = tc)) = true))
  · rw [if_pos hf, if_pos (hfast.mpr hf), countsToStringU8_bOf _ htc]
  · rw [if_neg hf, if_neg (fun hc => hf (hfast.mp hc))]
    exact maskScanU8_eq tc avail wcs tb htc hav hwcs tb.numMasks hcnt

/-- When no letter of the pool reaches 256 occurrences and no dictionary
word is 256 letters long, the byte-accurate cold run recommends exactly
what the ideal multiset model does. -/
theorem processGameStateU8_cold_recommended (payload : GamePayload) (dict : List Word)
    (hpool : Multiset.card (poolCountsOf payload) < 256)
    (hdict : ∀ w ∈ dict, w.length < 256) :
    (processGameStateU8 payload dict none).recommended =
      (processGameState payload dict none).recommended := by
  have hpoolW : noWrap (poolCountsOf payload) := noWrap_of_card_lt _ hpool
  have havail : noWrap (availCountsOf payload) := by
    refine noWrap_of_le ?_ hpoolW
    unfold poolCountsOf
    exact Multiset.le_add_right _ _
  have hwcsW : ∀ wc ∈ (uniqueWordsOf payload).map letterCounts, noWrap wc := by
    intro wc hwc
    obtain ⟨w, hw, rfl⟩ := List.mem_map.mp hwc
    exact noWrap_of_le (letterCounts_le_pool payload hw) hpoolW
  have hcntW : ∀ m < (precomputeTables (uniqueWordsOf payload)).numMasks,
      noWrap ((precomputeTables (uniqueWordsOf payload)).counts m) := by
    intro m _
    exact noWrap_of_le (maskCounts_le_pool payload m) hpoolW
  have htab : precomputeTablesU8 (uniqueWordsOf payload) =
      ⟨fun k => bOf ((precomputeTables (uniqueWordsOf payload)).counts k),
        (precomputeTables (uniqueWordsOf payload)).words,
        (precomputeTables (uniqueWordsOf payload)).numMasks⟩ := by
    show (⟨maskCountsU8 ((uniqueWordsOf payload).map letterCountsU8),
      maskWords (uniqueWordsOf payload), 2 ^ (uniqueWordsOf payload).length⟩ :
        SubsetTablesU8) = _
    congr 1
    funext k
    exact maskCountsU8_letterCounts _ k
  rw [processGameStateU8_recommended, processGameState_recommended]
  apply List.filterMap_congr
  intro word hword
  have hwordW : noWrap (letterCounts word) := by
    apply noWrap_of_card_lt
    simpa [letterCounts] using hdict word hword
  have hcand : candidateOKU8 (poolCountsU8Of payload) (bSum (poolCountsU8Of payload))
      word ↔ candidateOK (poolCountsOf payload)
        (Multiset.card (poolCountsOf payload)) word := by
    unfold candidateOKU8 candidateOK
    rw [poolCountsU8_eq, bSum_bOf _ hpoolW, letterCountsU8_eq,
      bOf_apply _ hpoolW word.headI]
    exact and_congr Iff.rfl (and_congr Iff.rfl
      (and_congr Iff.rfl (bLE_bOf _ _ hwordW hpoolW)))
  have hfind : findOneConstructionU8 (resolveCacheU8 none (uniqueWordsOf payload)).1.1
      (availCountsU8Of payload) (resolveCacheU8 none (uniqueWordsOf payload)).1.2
      (letterCountsU8 word) (resolveCacheU8 none (uniqueWordsOf payload)).2.1 =
      findOneConstruction (resolveCache none (uniqueWordsOf payload)).1.1
        (availCountsOf payload) (resolveCache none (uniqueWordsOf payload)).1.2
        (letterCounts word) (resolveCache none (uniqueWordsOf payload)).2.1 := by
    show findOneConstructionU8 (uniqueWordsOf payload) (availCountsU8Of payload)
        ((uniqueWordsOf payload).map letterCountsU8) (letterCountsU8 word)
        (precomputeTablesU8 (uniqueWordsOf payload)) =
      findOneConstruction (uniqueWordsOf payload) (availCountsOf payload)
        ((uniqueWordsOf payload).map letterCounts) (letterCounts word)
        (precomputeTables (uniqueWordsOf payload))
    rw [availCountsU8_eq, letterCountsU8_eq word, htab, letterCountsU8_fun,
      ← List.map_map]
    exact findOneConstructionU8_eq (uniqueWordsOf payload) (availCountsOf payload)
      (letterCounts word) ((uniqueWordsOf payload).map letterCounts)
      (precomputeTables (uniqueWordsOf payload)) hwordW havail hwcsW hcntW
  by_cases hc : candidateOK (poolCountsOf payload)
      (Multiset.card (poolCountsOf payload)) word
  · rw [if_pos hc, if_pos (hcand.mpr hc), hfind]
  · rw [if_neg hc, if_neg (fun h => hc (hcand.mp h))]

/-- One journal event as assembled by `detectAndLogStateChanges`
(worker.js lines 161-192): for `word_added` the `lettersUsed` field is the
word's letters in canonical (alphabetical, multiplicity-preserving) order;
for `word_removed` it is empty. -/
structure MoveEvent where
  playerIndex : Nat
  word : Word
  wordLength : Nat
  frequencyScore : ℚ
  lettersUsed : List Letter
  isAdded : Bool
  deriving DecidableEq

/-- Source `detectAndLogStateChanges` (worker.js lines 122-209): for each
player index, added words are the current occurrences whose value is not in
the stored previous set, removed words are the stored previous-set members
absent from the current words; the stored set is then replaced by the set of
current words (JS `Set` = first-occurrence dedup).  Returns the emitted
events (player-major, added before removed) and the updated previous map. -/
def detectChanges (wordsPerPlayer : List (List Word)) (prev : Nat → List Word)
    (freqs : Word → ℚ) : List MoveEvent × (Nat → List Word) :=
  let events := (List.range wordsPerPlayer.length).flatMap (fun i =>
    let currentWords := wordsPerPlayer.getD i []
    let previousWords := prev i
    let added := currentWords.filter (fun w => decide (w ∉ previousWords))
    let removed := previousWords.filter (fun w => decide (w ∉ currentWords))
    added.map (fun w =>
        ⟨i, w, w.length, freqs w, countsToString (letterCounts w), true⟩) ++
      removed.map (fun w => ⟨i, w, w.length, freqs w, [], false⟩))
  (events, fun i =>
    if i < wordsPerPlayer.length then jsUnique (wordsPerPlayer.getD i []) else prev i)

/-- The three frequency bins of a player aggregate. -/
structure FreqBins where
  common : Nat
  medium : Nat
  rare : Nat
  deriving DecidableEq

/-- One player's aggregate (stateLogger.js `getPlayerStats` initial shape):
the length histogram `wordsByLength` (a map length -> count in the source)
is represented by the multiset of counted lengths, so the source's sum over
its values is `Multiset.card` here. -/
structure PlayerStats where
  totalWords : Nat
  uniqueWords : Finset Word
  wordsByLength : Multiset Nat
  wordsByFrequency : FreqBins

/-- Fresh per-player aggregate. -/
def initStats : PlayerStats := ⟨0, ∅, 0, ⟨0, 0, 0⟩⟩

/-- Source `updatePlayerStats` (stateLogger.js lines 152-173): bump
`totalWords`, insert into `uniqueWords`, bump the length histogram, and bin
by `frequencyScore`: strictly greater than 5 is common, at least 3 (and at
most 5) is medium, below 3 is rare. -/
def updatePlayerStats (s : PlayerStats) (word : Word) (wordLength : Nat)
    (frequencyScore : ℚ) : PlayerStats :=
  { totalWords := s.totalWords + 1
    uniqueWords := insert word s.uniqueWords
    wordsByLength := wordLength ::ₘ s.wordsByLength
    wordsByFrequency :=
      if 5 < frequencyScore then
        { s.wordsByFrequency with common := s.wordsByFrequency.common + 1 }
      else if 3 ≤ frequencyScore then
        { s.wordsByFrequency with medium := s.wordsByFrequency.medium + 1 }
      else
        { s.wordsByFrequency with rare := s.wordsByFrequency.rare + 1 } }

/-- The in-memory aggregator (stateLogger.js `VocabularyAggregator`): the
per-player stats map (total function with fresh default, mirroring
`getPlayerStats`'s lazy initialization) and the rolling cross-player word
frequency counter. -/
structure Aggregator where
  playerStats : Nat → PlayerStats
  wordFrequency : Multiset Word

/-- A fresh aggregator (no aggregate file on disk). -/
def freshAggregator : Aggregator := ⟨fun _ => initStats, 0⟩

/-- Source `logEvent` (stateLogger.js lines 109-147): only `word_added`
events update the player stats and the word-frequency counter; every other
event type (including `word_removed`) leaves the aggregates unchanged.
Event buffering and disk persistence are I/O and are not modelled. -/
def logEvent (a : Aggregator) (e : MoveEvent) : Aggregator :=
  if e.isAdded then
    { playerStats := fun i =>
        if i = e.playerIndex then
          updatePlayerStats (a.playerStats e.playerIndex) e.word e.wordLength
            e.frequencyScore
        else a.playerStats i
      wordFrequency := e.word ::ₘ a.wordFrequency }
  else a

/-- Claim C8 (amended): a `word_added` event is binned by `frequencyScore`
with common strictly above 5, medium in [3, 5], rare below 3; in particular
a score of exactly 5 lands in the medium bin, not the common bin. -/
theorem claim_c8 (a : Aggregator) (e : MoveEvent) (he : e.isAdded = true) :
    ((logEvent a e).playerStats e.playerIndex).wordsByFrequency.common =
        (a.playerStats e.playerIndex).wordsByFrequency.common +
          (if 5 < e.frequencyScore then 1 else 0) ∧
    ((logEvent a e).playerStats e.playerIndex).wordsByFrequency.medium =
        (a.playerStats e.playerIndex).wordsByFrequency.medium +
          (if 3 ≤ e.frequencyScore ∧ e.frequencyScore ≤ 5 then 1 else 0) ∧
    ((logEvent a e).playerStats e.playerIndex).wordsByFrequency.rare =
        (a.playerStats e.playerIndex).wordsByFrequency.rare +
          (if e.frequencyScore < 3 then 1 else 0) := by
  have hps : (logEvent a e).playerStats e.playerIndex =
      updatePlayerStats (a.playerStats e.playerIndex) e.word e.wordLength
        e.frequencyScore := by
    unfold logEvent
    rw [if_pos he]
    simp
  rw [hps]
  unfold updatePlayerStats
  by_cases h5 : 5 < e.frequencyScore
  · have hm : ¬(3 ≤ e.frequencyScore ∧ e.frequencyScore ≤ 5) := by
      rintro ⟨_, hle⟩; linarith
    have hr : ¬(e.frequencyScore < 3) := by linarith
    simp [if_pos h5, if_neg hm, if_neg hr]
  · by_cases h3 : 3 ≤ e.frequencyScore
    · have hm : 3 ≤ e.frequencyScore ∧ e.frequencyScore ≤ 5 := ⟨h3, by linarith⟩
      have hr : ¬(e.frequencyScore < 3) := by linarith
      simp [if_neg h5, if_pos h3, if_pos hm, if_neg hr]
    · have hm : ¬(3 ≤ e.frequencyScore ∧ e.frequencyScore ≤ 5) := fun h => h3 h.1
      have hr : e.frequencyScore < 3 := by linarith
      simp [if_neg h5, if_neg h3, if_neg hm, if_pos hr]

/-- Witness for C8: a word_added event with Zipf score 6 goes to the common
bin of a fresh aggregator. -/
theorem claim_c8_witness :
    ((⟨0, [2, 0, 19], 3, 6, [], true⟩ : MoveEvent).isAdded = true) ∧
    ((logEvent freshAggregator ⟨0, [2, 0, 19], 3, 6, [], true⟩).playerStats
        0).wordsByFrequency.common =
      (freshAggregator.playerStats 0).wordsByFrequency.common +
        (if (5 : ℚ) < 6 then 1 else 0) :=
  ⟨rfl, (claim_c8 freshAggregator ⟨0, [2, 0, 19], 3, 6, [], true⟩ rfl).1⟩

/-- Counterexample to C8 as stated: a word_added event with frequencyScore
exactly 5 is counted in the medium bin and the common bin stays empty, so
the claimed binning (common gets scores of at least 5) is wrong. -/
theorem claim_c8_counterexample :
    ((logEvent freshAggregator ⟨0, [2, 0, 19], 3, 5, [], true⟩).playerStats
        0).wordsByFrequency.common = 0 ∧
    ((logEvent freshAggregator ⟨0, [2, 0, 19], 3, 5, [], true⟩).playerStats
        0).wordsByFrequency.medium = 1 := by
  constructor <;> decide

/-- Claim C9: after any sequence of events logged into a fresh aggregator,
every player aggregate satisfies the three bookkeeping invariants. -/
theorem claim_c9 (es : List MoveEvent) (i : Nat) :
    ((es.foldl logEvent freshAggregator).playerStats i).uniqueWords.card ≤
        ((es.foldl logEvent freshAggregator).playerStats i).totalWords ∧
    Multiset.card ((es.foldl logEvent freshAggregator).playerStats i).wordsByLength =
        ((es.foldl logEvent freshAggregator).playerStats i).totalWords ∧
    ((es.foldl logEvent freshAggregator).playerStats i).wordsByFrequency.common +
        ((es.foldl logEvent freshAggregator).playerStats i).wordsByFrequency.medium +
        ((es.foldl logEvent freshAggregator).playerStats i).wordsByFrequency.rare =
        ((es.foldl logEvent freshAggregator).playerStats i).totalWords := by
  have h : ∀ (a : Aggregator),
      (∀ j, (a.playerStats j).uniqueWords.card ≤ (a.playerStats j).totalWords ∧
        Multiset.card (a.playerStats j).wordsByLength = (a.playerStats j).totalWords ∧
        (a.playerStats j).wordsByFrequency.common +
          (a.playerStats j).wordsByFrequency.medium +
          (a.playerStats j).wordsByFrequency.rare = (a.playerStats j).totalWords) →
      ∀ j, ((es.foldl logEvent a).playerStats j).uniqueWords.card ≤
          ((es.foldl logEvent a).playerStats j).totalWords ∧
        Multiset.card ((es.foldl logEvent a).playerStats j).wordsByLength =
          ((es.foldl logEvent a).playerStats j).totalWords ∧
        ((es.foldl logEvent a).playerStats j).wordsByFrequency.common +
          ((es.foldl logEvent a).playerStats j).wordsByFrequency.medium +
          ((es.foldl logEvent a).playerStats j).wordsByFrequency.rare =
          ((es.foldl logEvent a).playerStats j).totalWords := by
    induction es with
    | nil => intro a ha j; exact ha j
    | cons e es ih =>
      intro a ha j
      refine ih (logEvent a e) ?_ j
      intro k
      unfold logEvent
      by_cases hadd : e.isAdded = true
      · rw [if_pos hadd]
        by_cases hk : k = e.playerIndex
        · simp only [if_pos hk]
          obtain ⟨h1, h2, h3⟩ := ha e.playerIndex
          unfold updatePlayerStats
          refine ⟨?_, ?_, ?_⟩
          · calc (insert e.word (a.playerStats e.playerIndex).uniqueWords).card
                ≤ (a.playerStats e.playerIndex).uniqueWords.card + 1 :=
                  Finset.card_insert_le _ _
              _ ≤ (a.playerStats e.playerIndex).totalWords + 1 := by omega
          · simpa using h2
          · by_cases h5 : 5 < e.frequencyScore
            · simp only [if_pos h5]; omega
            · by_cases h3q : 3 ≤ e.frequencyScore
              · simp only [if_neg h5, if_pos h3q]; omega
              · simp only [if_neg h5, if_neg h3q]; omega
        · simp only [if_neg hk]
          exact ha k
      · rw [if_neg hadd]
        exact ha k
  exact h freshAggregator (fun j => ⟨by simp [freshAggregator, initStats],
    by simp [freshAggregator, initStats], by simp [freshAggregator, initStats]⟩) i

theorem countP_flatMap {α β : Type} (l : List α) (f : α → List β) (p : β → Bool) :
    (l.flatMap f).countP p = (l.map (fun a => (f a).countP p)).sum := by
  induction l with
  | nil => rfl
  | cons a l ih => simp [List.flatMap_cons, List.countP_append, ih]

theorem map_range_sum_single (n i : Nat) (hi : i < n) (g : Nat → Nat)
    (h0 : ∀ j, j < n → j ≠ i → g j = 0) : ((List.range n).map g).sum = g i := by
  induction n with
  | zero => omega
  | succ n ih =>
    rw [List.range_succ, List.map_append, List.sum_append]
    simp only [List.map_cons, List.map_nil, List.sum_cons, List.sum_nil]
    by_cases hin : i = n
    · subst hin
      have hz : ((List.range i).map g).sum = 0 := by
        apply List.sum_eq_zero
        intro x hx
        obtain ⟨j, hj, rfl⟩ := List.mem_map.mp hx
        exact h0 j (Nat.lt_succ_of_lt (List.mem_range.mp hj))
          (Nat.ne_of_lt (List.mem_range.mp hj))
      omega
    · have hi2 : i < n := by omega
      rw [ih hi2 (fun j hj hji => h0 j (Nat.lt_succ_of_lt hj) hji)]
      rw [h0 n (Nat.lt_succ_self n) (fun h => hin h.symm)]
      omega

theorem countP_eq_one_of_nodup_mem (l : List Word) (w : Word) (hnd : l.Nodup)
    (hw : w ∈ l) : l.countP (fun x => decide (x = w)) = 1 := by
  induction l with
  | nil => exact absurd hw (List.not_mem_nil w)
  | cons a l ih =>
    have hna : a ∉ l := (List.nodup_cons.mp hnd).1
    have hnd2 : l.Nodup := (List.nodup_cons.mp hnd).2
    rw [List.countP_cons]
    by_cases haw : w = a
    · subst haw
      rw [List.countP_eq_zero.mpr, if_pos (by simp)]
      intro x hx hpx
      exact hna ((show x = w by simpa using hpx) ▸ hx)
    · have hwl : w ∈ l := by
        rcases List.mem_cons.mp hw with h | h
        · exact absurd h haw
        · exact h
      rw [ih hnd2 hwl, if_neg (by simpa using fun h => haw h.symm)]

theorem countP_eq_zero_of_not_mem (l : List Word) (w : Word) (hw : w ∉ l) :
    l.countP (fun x => decide (x = w)) = 0 := by
  rw [List.countP_eq_zero]
  intro a ha hpa
  exact hw ((show a = w by simpa using hpa) ▸ ha)

theorem countP_added (curr prevL : List Word) (w : Word) :
    (curr.filter (fun x => decide (x ∉ prevL))).countP (fun x => decide (x = w)) =
      if w ∈ prevL then 0 else curr.countP (fun x => decide (x = w)) := by
  by_cases hw : w ∈ prevL
  · rw [if_pos hw, List.countP_eq_zero]
    intro a ha hpa
    rw [List.mem_filter] at ha
    have haw : a = w := by simpa using hpa
    have hnm : a ∉ prevL := by simpa using ha.2
    exact hnm (haw ▸ hw)
  · rw [if_neg hw, List.countP_filter]
    apply List.countP_congr
    intro x _
    by_cases hxw : x = w
    · subst hxw; simp [hw]
    · simp [hxw]

theorem countP_removed (prevL curr : List Word) (w : Word) (hnd : prevL.Nodup) :
    (prevL.filter (fun x => decide (x ∉ curr))).countP (fun x => decide (x = w)) =
      if w ∈ prevL ∧ w ∉ curr then 1 else 0 := by
  rw [List.countP_filter]
  by_cases hwc : w ∈ curr
  · rw [if_neg (fun h => h.2 hwc), List.countP_eq_zero]
    intro a _ hpa
    simp only [Bool.and_eq_true, decide_eq_true_eq] at hpa
    exact hpa.2 (hpa.1 ▸ hwc)
  · have hcg : prevL.countP (fun a => decide (a = w) && decide (a ∉ curr)) =
        prevL.countP (fun a => decide (a = w)) := by
      apply List.countP_congr
      intro x _
      by_cases hxw : x = w
      · subst hxw; simp [hwc]
      · simp [hxw]
    rw [hcg]
    by_cases hwp : w ∈ prevL
    · rw [if_pos ⟨hwp, hwc⟩, countP_eq_one_of_nodup_mem prevL w hnd hwp]
    · rw [if_neg (fun h => hwp h.1), countP_eq_zero_of_not_mem prevL w hwp]

/-- Claim C6 (amended): for each player index i, the diff emits one
word_added event per occurrence in curr_i of a word whose value is not in
the stored previous set (occurrences of a word already present in prev_i
emit nothing, even when curr_i holds more copies than prev_i), and exactly
one word_removed event per stored previous word absent from curr_i. -/
theorem claim_c6 (wordsPerPlayer : List (List Word)) (prev : Nat → List Word)
    (freqs : Word → ℚ) (i : Nat) (hi : i < wordsPerPlayer.length)
    (hnd : (prev i).Nodup) (w : Word) :
    ((detectChanges wordsPerPlayer prev freqs).1.countP
        (fun e => e.isAdded && decide (e.playerIndex = i) && decide (e.word = w)) =
      if w ∈ prev i then 0
      else (wordsPerPlayer.getD i []).countP (fun x => decide (x = w))) ∧
    ((detectChanges wordsPerPlayer prev freqs).1.countP
        (fun e => !e.isAdded && decide (e.playerIndex = i) && decide (e.word = w)) =
      if w ∈ prev i ∧ w ∉ wordsPerPlayer.getD i [] then 1 else 0) := by
  have hev : (detectChanges wordsPerPlayer prev freqs).1 =
      (List.range wordsPerPlayer.length).flatMap (fun j =>
        ((wordsPerPlayer.getD j []).filter (fun x => decide (x ∉ prev j))).map (fun x =>
            (⟨j, x, x.length, freqs x, countsToString (letterCounts x), true⟩ : MoveEvent)) ++
          ((prev j).filter (fun x => decide (x ∉ wordsPerPlayer.getD j []))).map (fun x =>
            (⟨j, x, x.length, freqs x, [], false⟩ : MoveEvent))) := rfl
  constructor
  · rw [hev, countP_flatMap]
    have hchunk : ∀ j,
        ((((wordsPerPlayer.getD j []).filter (fun x => decide (x ∉ prev j))).map (fun x =>
            (⟨j, x, x.length, freqs x, countsToString (letterCounts x), true⟩ : MoveEvent)) ++
          ((prev j).filter (fun x => decide (x ∉ wordsPerPlayer.getD j []))).map (fun x =>
            (⟨j, x, x.length, freqs x, [], false⟩ : MoveEvent))).countP
          (fun e => e.isAdded && decide (e.playerIndex = i) && decide (e.word = w))) =
        if j = i then
          ((wordsPerPlayer.getD j []).filter (fun x => decide (x ∉ prev j))).countP
            (fun x => decide (x = w))
        else 0 := by
      intro j
      rw [List.countP_append, List.countP_map, List.countP_map]
      have hrem : ((prev j).filter
            (fun x => decide (x ∉ wordsPerPlayer.getD j []))).countP
          ((fun e => e.isAdded && decide (e.playerIndex = i) && decide (e.word = w)) ∘
            (fun x => (⟨j, x, x.length, freqs x, [], false⟩ : MoveEvent))) = 0 := by
        rw [List.countP_eq_zero]
        intro a _
        simp
      rw [hrem, Nat.add_zero]
      by_cases hji : j = i
      · rw [if_pos hji]
        apply List.countP_congr
        intro x _
        simp [Function.comp, hji]
      · rw [if_neg hji, List.countP_eq_zero]
        intro a _
        simp [Function.comp, hji]
    calc ((List.range wordsPerPlayer.length).map (fun j =>
            ((((wordsPerPlayer.getD j []).filter (fun x => decide (x ∉ prev j))).map (fun x =>
                (⟨j, x, x.length, freqs x, countsToString (letterCounts x), true⟩ : MoveEvent)) ++
              ((prev j).filter (fun x => decide (x ∉ wordsPerPlayer.getD j []))).map (fun x =>
                (⟨j, x, x.length, freqs x, [], false⟩ : MoveEvent))).countP
              (fun e => e.isAdded && decide (e.playerIndex = i) && decide (e.word = w))))).sum
        = ((List.range wordsPerPlayer.length).map (fun j =>
            if j = i then
              ((wordsPerPlayer.getD j []).filter (fun x => decide (x ∉ prev j))).countP
                (fun x => decide (x = w))
            else 0)).sum := by
          congr 1
          exact List.map_congr_left (fun j _ => hchunk j)
      _ = ((wordsPerPlayer.getD i []).filter (fun x => decide (x ∉ prev i))).countP
            (fun x => decide (x = w)) := by
          rw [map_range_sum_single wordsPerPlayer.length i hi _
            (fun j _ hji => if_neg hji)]
          rw [if_pos rfl]
      _ = if w ∈ prev i then 0
            else (wordsPerPlayer.getD i []).countP (fun x => decide (x = w)) :=
          countP_added _ _ w
  · rw [hev, countP_flatMap]
    have hchunk : ∀ j,
        ((((wordsPerPlayer.getD j []).filter (fun x => decide (x ∉ prev j))).map (fun x =>
            (⟨j, x, x.length, freqs x, countsToString (letterCounts x), true⟩ : MoveEvent)) ++
          ((prev j).filter (fun x => decide (x ∉ wordsPerPlayer.getD j []))).map (fun x =>
            (⟨j, x, x.length, freqs x, [], false⟩ : MoveEvent))).countP
          (fun e => !e.isAdded && decide (e.playerIndex = i) && decide (e.word = w))) =
        if j = i then
          ((prev j).filter (fun x => decide (x ∉ wordsPerPlayer.getD j []))).countP
            (fun x => decide (x = w))
        else 0 := by
      intro j
      rw [List.countP_append, List.countP_map, List.countP_map]
      have hadd : (((wordsPerPlayer.getD j []).filter
            (fun x => decide (x ∉ prev j))).countP
          ((fun e => !e.isAdded && decide (e.playerIndex = i) && decide (e.word = w)) ∘
            (fun x =>
              (⟨j, x, x.length, freqs x, countsToString (letterCounts x), true⟩ :
                MoveEvent)))) = 0 := by
        rw [List.countP_eq_zero]
        intro a _
        simp
      rw [hadd, Nat.zero_add]
      by_cases hji : j = i
      · rw [if_pos hji]
        apply List.countP_congr
        intro x _
        simp [Function.comp, hji]
      · rw [if_neg hji, List.countP_eq_zero]
        intro a _
        simp [Function.comp, hji]
    calc ((List.range wordsPerPlayer.length).map (fun j =>
            ((((wordsPerPlayer.getD j []).filter (fun x => decide (x ∉ prev j))).map (fun x =>
                (⟨j, x, x.length, freqs x, countsToString (letterCounts x), true⟩ : MoveEvent)) ++
              ((prev j).filter (fun x => decide (x ∉ wordsPerPlayer.getD j []))).map (fun x =>
                (⟨j, x, x.length, freqs x, [], false⟩ : MoveEvent))).countP
              (fun e => !e.isAdded && decide (e.playerIndex = i) && decide (e.word = w))))).sum
        = ((List.range wordsPerPlayer.length).map (fun j =>
            if j = i then
              ((prev j).filter (fun x => decide (x ∉ wordsPerPlayer.getD j []))).countP
                (fun x => decide (x = w))
            else 0)).sum := by
          congr 1
          exact List.map_congr_left (fun j _ => hchunk j)
      _ = ((prev i).filter (fun x => decide (x ∉ wordsPerPlayer.getD i []))).countP
            (fun x => decide (x = w)) := by
          rw [map_range_sum_single wordsPerPlayer.length i hi _
            (fun j _ hji => if_neg hji)]
          rw [if_pos rfl]
      _ = if w ∈ prev i ∧ w ∉ wordsPerPlayer.getD i [] then 1 else 0 :=
          countP_removed _ _ w hnd

/-- Witness for C6: a fresh player adding cat emits exactly one word_added
event and no word_removed event. -/
theorem claim_c6_witness :
    (0 < ([[[2, 0, 19]]] : List (List Word)).length ∧
      (([] : List Word)).Nodup) ∧
    ((detectChanges [[[2, 0, 19]]] (fun _ => []) (fun _ => 0)).1.countP
        (fun e => e.isAdded && decide (e.playerIndex = 0) &&
          decide (e.word = [2, 0, 19])) =
      if ([2, 0, 19] : Word) ∈ ([] : List Word) then 0
      else (([[[2, 0, 19]]] : List (List Word)).getD 0 []).countP
        (fun x => decide (x = [2, 0, 19]))) ∧
    ((detectChanges [[[2, 0, 19]]] (fun _ => []) (fun _ => 0)).1.countP
        (fun e => !e.isAdded && decide (e.playerIndex = 0) &&
          decide (e.word = [2, 0, 19])) =
      if ([2, 0, 19] : Word) ∈ ([] : List Word) ∧
          ([2, 0, 19] : Word) ∉ ([[[2, 0, 19]]] : List (List Word)).getD 0 []
        then 1 else 0) :=
  ⟨⟨by decide, List.nodup_nil⟩,
    (claim_c6 [[[2, 0, 19]]] (fun _ => []) (fun _ => 0) 0 (by decide)
      List.nodup_nil [2, 0, 19]).1,
    (claim_c6 [[[2, 0, 19]]] (fun _ => []) (fun _ => 0) 0 (by decide)
      List.nodup_nil [2, 0, 19]).2⟩

/-- Counterexample to C6 as stated: current words cat, cat with stored set
containing cat.  The multiset difference curr minus prev holds one
occurrence of cat, yet the diff emits no event at all (the filter tests set
membership, not multiset multiplicity). -/
theorem claim_c6_counterexample :
    (detectChanges [[[2, 0, 19], [2, 0, 19]]] (fun _ => [[2, 0, 19]])
        (fun _ => 0)).1 = [] ∧
    Multiset.count ([2, 0, 19] : Word)
      ((([[2, 0, 19], [2, 0, 19]] : List Word) : Multiset Word) -
        (([[2, 0, 19]] : List Word) : Multiset Word)) = 1 := by
  constructor <;> decide

/-!
Temporal fusion (dataFusion.js).  Word confidences are modelled as
rationals; the source's JavaScript numbers only ever hold the values
0.1·k and 0.25·k produced below, and no settled claim depends on
floating-point rounding.
-/

/-- The shared one-deletion test of the source (`checkOneLetterOff`'s inner
loop, `shouldDiscardModifiedWord`, `areWordsSimilar`): pick shorter/longer by
the source's two ternaries and test whether deleting one position of the
longer yields the shorter. -/
def oneDeletionRelated (w1 w2 : Word) : Bool :=
  let shorter := if w1.length < w2.length then w1 else w2
  let longer := if w2.length < w1.length then w1 else w2
  (List.range longer.length).any (fun i => decide (longer.eraseIdx i = shorter))

/-- Source `areWordsSimilar` (dataFusion.js lines 660-677). -/
def areWordsSimilar (w1 w2 : Word) : Bool :=
  if w1 = w2 then true
  else if 1 < Nat.dist w1.length w2.length then false
  else oneDeletionRelated w1 w2

/-- Source `checkOneLetterOff` (dataFusion.js lines 21-51): first previous
word at exact length distance 1 that is one deletion away, preferring the
previous word when dictionary-valid, then the shorter, then the longer. -/
def checkOneLetterOff (word : Word) (previousWords : List Word)
    (dict : List Word) : Option Word :=
  previousWords.findSome? (fun prev =>
    if Nat.dist word.length prev.length = 1 then
      let shorter := if word.length < prev.length then word else prev
      let longer := if prev.length < word.length then word else prev
      (List.range longer.length).findSome? (fun i =>
        if longer.eraseIdx i = shorter then
          if prev ∈ dict then some prev
          else if shorter ∈ dict then some shorter
          else if longer ∈ dict then some longer
          else none
        else none)
    else none)

/-- The cut positions `i` from `MIN_WORD_LENGTH` to `len - MIN_WORD_LENGTH`
inclusive used by every split loop of the source (empty when `len < 6`). -/
def splitRange (len : Nat) : List Nat := List.range' 3 (len - 5)

/-- Source `checkSplitIntoTwoWords` (dataFusion.js lines 59-101): first pass
prefers cuts where one half is a disappeared word and the other is
dictionary-valid; second pass takes the first cut with both halves valid. -/
def checkSplitIntoTwoWords (word : Word) (dict : List Word)
    (disappeared : List Word) : Option (List Word) :=
  match (splitRange word.length).findSome? (fun i =>
      let p1 := word.take i
      let p2 := word.drop i
      if p1.length < 3 ∨ p2.length < 3 then none
      else if (p1 ∈ disappeared ∧ p2 ∈ dict) ∨ (p2 ∈ disappeared ∧ p1 ∈ dict) then
        some [p1, p2]
      else none) with
  | some r => some r
  | none => (splitRange word.length).findSome? (fun i =>
      let p1 := word.take i
      let p2 := word.drop i
      if p1.length < 3 ∨ p2.length < 3 then none
      else if p1 ∈ dict ∧ p2 ∈ dict then some [p1, p2]
      else none)

/-- One level of `checkRecursiveSplit` (dataFusion.js lines 107-145), with
the recursion at depth minus one abstracted as `recur` (the unused
`disappearedWords` parameter of the source is dropped). -/
def checkRecStep (dict : List Word) (recur : Word → Option (List Word))
    (word : Word) : Option (List Word) :=
  if word.length < 6 then none
  else if word ∈ dict then some [word]
  else (splitRange word.length).findSome? (fun i =>
    let p1 := word.take i
    let p2 := word.drop i
    if p1.length < 3 ∨ p2.length < 3 then none
    else if p1 ∈ dict ∧ p2 ∈ dict then some [p1, p2]
    else if p1 ∈ dict then (recur p2).map (fun s => p1 :: s)
    else if p2 ∈ dict then (recur p1).map (fun s => s ++ [p2])
    else none)

/-- Source `checkRecursiveSplit` with its depth budget (default 3): at depth
zero the guarded recursive branches of the source never fire, which is the
same as recursing into a constantly failing function. -/
def checkRecursiveSplit (dict : List Word) : Nat → Word → Option (List Word)
  | 0 => checkRecStep dict (fun _ => none)
  | d + 1 => checkRecStep dict (checkRecursiveSplit dict d)

/-- JS `String.indexOf`: the first start index at which `needle` occurs in
`hay`, if any. -/
def firstInfixIdx (needle hay : Word) : Option Nat :=
  (List.range (hay.length + 1)).find? (fun i => needle.isPrefixOf (hay.drop i))

/-- Source `checkCombinedWithWord` (dataFusion.js lines 153-199): for each
disappeared word of length at least 3, test prefix, suffix, then middle
occurrence, requiring every other part to be at least 3 letters and
dictionary-valid or itself disappeared. -/
def checkCombinedWithWord (word : Word) (disappeared : List Word)
    (dict : List Word) : Option (List Word) :=
  disappeared.findSome? (fun d =>
    if d.length < 3 then none
    else
      match (if d.isPrefixOf word ∧ d.length < word.length then
          let rem := word.drop d.length
          if 3 ≤ rem.length ∧ (rem ∈ dict ∨ rem ∈ disappeared) then some [d, rem]
          else none
        else none) with
      | some r => some r
      | none =>
        match (if d.isSuffixOf word ∧ d.length < word.length then
            let rem := word.take (word.length - d.length)
            if 3 ≤ rem.length ∧ (rem ∈ dict ∨ rem ∈ disappeared) then some [rem, d]
            else none
          else none) with
        | some r => some r
        | none =>
          match firstInfixIdx d word with
          | some idx =>
            if 3 ≤ idx ∧ idx + d.length ≤ word.length - 3 then
              let before := word.take idx
              let after := word.drop (idx + d.length)
              if 3 ≤ before.length ∧ 3 ≤ after.length ∧
                  (before ∈ dict ∨ before ∈ disappeared) ∧
                  (after ∈ dict ∨ after ∈ disappeared) then
                some [before, d, after]
              else none
            else none
          | none => none)

/-- The frequency-ordered common letters of `checkAddOneLetter`
(e a r i o t n s l c u d p m h g b f y w k v x z j q). -/
def commonLetters : List Letter :=
  [4, 0, 17, 8, 14, 19, 13, 18, 11, 2, 20, 3, 15, 12, 7, 6, 1, 5, 24, 22,
    10, 21, 23, 25, 9, 16]

/-- Priority of insertion position `i` in a word of length `len`: the
source's distance from the middle `|i - len/2|`, doubled to stay in ℕ. -/
def posKey (len i : Nat) : Nat := Nat.dist (2 * i) len

/-- Stable insertion used by `sortPositions`. -/
def insPos (len : Nat) (i : Nat) : List Nat → List Nat
  | [] => [i]
  | j :: js => if posKey len i ≤ posKey len j then i :: j :: js else j :: insPos len i js

/-- The insertion positions 0..len sorted by distance from the middle,
stable on ties (JS `Array.prototype.sort` is stable). -/
def sortPositions (len : Nat) : List Nat :=
  (List.range (len + 1)).foldr (insPos len) []

/-- Source `checkAddOneLetter` (dataFusion.js lines 206-245): try inserting
each distinct free-list letter at each position (middle positions first);
only if no free-list letter works, fall back to the common letters. -/
def checkAddOneLetter (word : Word) (oldFree : Word) (dict : List Word) :
    Option Word :=
  let freeLetters := jsUnique oldFree
  let tryLetters := fun (letters : List Letter) =>
    (sortPositions word.length).findSome? (fun pos =>
      letters.findSome? (fun l =>
        let cand := word.take pos ++ l :: word.drop pos
        if cand ∈ dict then some cand else none))
  match (if freeLetters ≠ [] then tryLetters freeLetters else none) with
  | some c => some c
  | none => tryLetters commonLetters

/-- Result of `correctWord`: either one word (with its modified flag) or a
split into several words. -/
inductive Corrected where
  | single (w : Word) (modified : Bool)
  | split (ws : List Word)
  deriving DecidableEq

/-- Source `correctWord` (dataFusion.js lines 251-296): accept dictionary
words unchanged, then try the combined-with-disappeared split, the
two-word split, the recursive split (words of length at least 6, depth 3,
only splits into more than one part count), the one-letter-off correction
against the previous state, and the add-one-letter correction; otherwise
return the word unchanged and unmodified. -/
def correctWord (word : Word) (previousWords : List Word) (oldFree : Word)
    (dict : List Word) (disappeared : List Word) : Corrected :=
  if word = [] then .single word false
  else if word ∈ dict then .single word false
  else match checkCombinedWithWord word disappeared dict with
  | some ws => .split ws
  | none =>
    match checkSplitIntoTwoWords word dict disappeared with
    | some ws => .split ws
    | none =>
      match (if 6 ≤ word.length then
          match checkRecursiveSplit dict 3 word with
          | some rs => if 1 < rs.length then some rs else none
          | none => none
        else none) with
      | some ws => .split ws
      | none =>
        match checkOneLetterOff word previousWords dict with
        | some w2 => .single w2 true
        | none =>
          match checkAddOneLetter word oldFree dict with
          | some w2 => .single w2 true
          | none => .single word false

/-- Two-slot ring push (`recordRawCall` of both trackers): append, then
drop the oldest entry when more than two are held. -/
def pushRing {α : Type} (l : List α) (x : α) : List α :=
  if 2 < (l ++ [x]).length then (l ++ [x]).tail else l ++ [x]

/-- Source `FreeListTracker`: the last two raw loose-letter strings and the
fused free list (never written by the worker, so it stays at its initial
empty value there). -/
structure FreeListTracker where
  rawCalls : List Word
  currentFreeList : Word
  deriving DecidableEq

/-- Source `WordVisibilityTracker`: the word lists of the last two raw
snapshots. -/
structure WordVisibilityTracker where
  rawWordCalls : List (List Word)
  deriving DecidableEq

/-- Source `wasSeenInLastTwoCalls`. -/
def visSeen (vis : WordVisibilityTracker) (w : Word) : Bool :=
  vis.rawWordCalls.any (fun call => decide (w ∈ call))

/-- One confidence entry. -/
structure ConfEntry where
  confidence : ℚ
  wasModified : Bool
  deriving DecidableEq

/-- Source `WordConfidenceTracker`: a JS `Map` in insertion order, as an
association list. -/
structure WordConfidenceTracker where
  entries : List (Word × ConfEntry)
  deriving DecidableEq

/-- Map lookup. -/
def confGet (t : WordConfidenceTracker) (w : Word) : Option ConfEntry :=
  (t.entries.find? (fun p => decide (p.1 = w))).map (fun p => p.2)

/-- Source `getConfidence` (default 1 for untracked words). -/
def getConfidence (t : WordConfidenceTracker) (w : Word) : ℚ :=
  (confGet t w).elim 1 (fun e => e.confidence)

/-- Source `wasModified` (default false). -/
def confWasModified (t : WordConfidenceTracker) (w : Word) : Bool :=
  (confGet t w).elim false (fun e => e.wasModified)

/-- JS `Map.set`: replace in place when the key exists, else append. -/
def confSet (t : WordConfidenceTracker) (w : Word) (e : ConfEntry) :
    WordConfidenceTracker :=
  if t.entries.any (fun p => decide (p.1 = w)) then
    ⟨t.entries.map (fun p => if p.1 = w then (w, e) else p)⟩
  else ⟨t.entries ++ [(w, e)]⟩

/-- Source `shouldDiscardModifiedWord` (dataFusion.js lines 447-473). -/
def shouldDiscardModifiedWord (t : WordConfidenceTracker) (mw nw : Word) : Bool :=
  if confWasModified t mw ∧ getConfidence t mw ≤ 1 / 2 then
    if Nat.dist mw.length nw.length ≤ 1 then oneDeletionRelated mw nw else false
  else false

/-- Source `WordConfidenceTracker.update` (dataFusion.js lines 402-441):
set modified words to confidence 1/2, raise directly observed words by 1/4
toward 1, then decay unobserved entries by 1/10, dropping entries at 0. -/
def confUpdate (t : WordConfidenceTracker) (currentWords modifiedWords : List Word) :
    WordConfidenceTracker :=
  let t1 := currentWords.foldl (fun acc w =>
    if w ∈ modifiedWords then confSet acc w ⟨1 / 2, true⟩
    else if getConfidence acc w < 1 then
      confSet acc w ⟨min 1 (getConfidence acc w + 1 / 4), false⟩
    else confSet acc w ⟨1, false⟩) t
  ⟨t1.entries.filterMap (fun p =>
    if p.1 ∈ currentWords then some p
    else if max 0 (p.2.confidence - 1 / 10) ≤ 0 then none
    else some (p.1, ⟨max 0 (p.2.confidence - 1 / 10), p.2.wasModified⟩))⟩

/-- Previous fused state as the worker stores it (`previousFusedState`). -/
structure PrevState where
  words : List Word
  availableLetters : Word
  deriving DecidableEq

/-- The fused snapshot returned by `fuseData`. -/
structure FusedOutput where
  players : List (List Word)
  availableLetters : Word
  deriving DecidableEq

/-- Step-1 disappeared words: previous-state words absent from the current
raw snapshot. -/
def disappearedOf (previousWords rawInputWords : List Word) : List Word :=
  previousWords.filter (fun p => decide (p ∉ rawInputWords))

/-- Per-word correction of step 2 of `fuseData` (lines 532-574): returns the
corrected words pushed for this input word and the words marked modified.
Words shorter than 3 letters are only rescued via `checkAddOneLetter`. -/
def correctOne (previousWords : List Word) (oldFree : Word) (dict : List Word)
    (disappeared : List Word) (word : Word) : List Word × List Word :=
  if word.length < 3 then
    match checkAddOneLetter word oldFree dict with
    | some w2 => if 3 ≤ w2.length then ([w2], [w2]) else ([], [])
    | none => ([], [])
  else
    match correctWord word previousWords oldFree dict disappeared with
    | .split ws =>
      let valid := ws.filter (fun w => decide (3 ≤ w.length))
      if valid ≠ [] then (valid, valid) else ([], [])
    | .single w2 m =>
      if 3 ≤ w2.length then ([w2], if m then [w2] else []) else ([], [])

/-- Step-2 corrected per-player lists. -/
def correctedListsOf (wordsPerPlayer : List (List Word)) (previousWords : List Word)
    (oldFree : Word) (dict : List Word) (disappeared : List Word) :
    List (List Word) :=
  wordsPerPlayer.map (fun pw =>
    pw.flatMap (fun w => (correctOne previousWords oldFree dict disappeared w).1))

/-- Step-2 modified-word list (player-major order, as the source pushes). -/
def modifiedWordsOf (wordsPerPlayer : List (List Word)) (previousWords : List Word)
    (oldFree : Word) (dict : List Word) (disappeared : List Word) : List Word :=
  wordsPerPlayer.flatten.flatMap
    (fun w => (correctOne previousWords oldFree dict disappeared w).2)

/-- Step 2.5 keep predicate (lines 586-643): a modified word known to the
confidence tracker as modified is dropped when some other raw input word
triggers `shouldDiscardModifiedWord` or is one deletion away and
dictionary-valid. -/
def keepAfterConfidence (conf : WordConfidenceTracker) (rawInputWords : List Word)
    (modifiedWords : List Word) (dict : List Word) (w : Word) : Bool :=
  if w ∈ modifiedWords ∧ confWasModified conf w then
    !(rawInputWords.any (fun r =>
        decide (r ≠ w) && shouldDiscardModifiedWord conf w r) ||
      rawInputWords.any (fun r =>
        decide (r ≠ w) && decide (Nat.dist w.length r.length ≤ 1) &&
          oneDeletionRelated w r && decide (r ∈ dict)))
  else true

/-- JS `String.includes`: `needle` occurs contiguously inside `hay`. -/
def jsIncludes (hay needle : Word) : Bool := (firstInfixIdx needle hay).isSome

/-- One iteration of the step-3 restoration loop (lines 679-730): skip
previous words shorter than 3 letters, words still present in the pre-loop
corrected set, words substring-subsumed by the evolving corrected list,
words with a one-edit-similar raw input word, and words absent from the
visibility ring; otherwise append the word to the first player's list (and
to the evolving corrected list) when at least one player list exists. -/
def restoreStep (correctedSet rawInputWords : List Word)
    (vis : WordVisibilityTracker) (st : List (List Word) × List Word)
    (prevWord : Word) : List (List Word) × List Word :=
  if prevWord.length < 3 then st
  else if prevWord ∈ correctedSet then st
  else if st.2.any (fun c => jsIncludes c prevWord || jsIncludes prevWord c) then st
  else if rawInputWords.any (fun r => areWordsSimilar prevWord r) then st
  else if !(visSeen vis prevWord) then st
  else match st.1 with
    | [] => st
    | h :: t => ((h ++ [prevWord]) :: t, st.2 ++ [prevWord])

/-- Step-3 restoration loop, folding `restoreStep` over the previous-state
words while threading the per-player lists and the evolving
`allCorrectedWords` array.  The membership test against the pre-loop
`correctedWordsSet` stays fixed (`correctedSet`); the substring-subsumption
test runs against the evolving list. -/
def restoreFold (correctedSet rawInputWords : List Word)
    (vis : WordVisibilityTracker) (previousWords : List Word)
    (lists : List (List Word)) (allW : List Word) :
    List (List Word) × List Word :=
  previousWords.foldl (restoreStep correctedSet rawInputWords vis) (lists, allW)

/-- Source `fuseData` (dataFusion.js lines 496-752), with the trackers (all
always supplied by the worker) threaded as values.  The returned tuple is
the fused payload plus the updated free-list, confidence, and visibility
trackers. -/
def fuseData (payload : GamePayload) (previousState : Option PrevState)
    (dict : List Word) (free : FreeListTracker) (conf : WordConfidenceTracker)
    (vis : WordVisibilityTracker) :
    FusedOutput × FreeListTracker × WordConfidenceTracker × WordVisibilityTracker :=
  let previousWords := (previousState.map PrevState.words).getD []
  let oldFree := free.currentFreeList
  let free2 : FreeListTracker :=
    ⟨pushRing free.rawCalls payload.availableLetters, free.currentFreeList⟩
  let rawInputWords := payload.wordsPerPlayer.flatten
  let vis2 : WordVisibilityTracker := ⟨pushRing vis.rawWordCalls rawInputWords⟩
  let disappeared := disappearedOf previousWords rawInputWords
  let corrected := correctedListsOf payload.wordsPerPlayer previousWords oldFree dict
    disappeared
  let modified := modifiedWordsOf payload.wordsPerPlayer previousWords oldFree dict
    disappeared
  let filtered := corrected.map (fun pw =>
    pw.filter (keepAfterConfidence conf rawInputWords modified dict))
  let allFiltered := filtered.flatten
  let restored := restoreFold allFiltered rawInputWords vis2 previousWords
    filtered allFiltered
  let finalLists := restored.1.map (fun ws => ws.filter (fun w => decide (3 ≤ w.length)))
  let finalAll := restored.2.filter (fun w => decide (3 ≤ w.length))
  let conf2 := confUpdate conf finalAll (modified.filter (fun w => decide (3 ≤ w.length)))
  (⟨finalLists, payload.availableLetters⟩, free2, conf2, vis2)

/-- The restored words of one fusion run: what the restoration loop appended
to the first player's list (the suffix the fold added to
`allCorrectedWords`). -/
def restoredWordsOf (correctedSet rawInputWords : List Word)
    (vis : WordVisibilityTracker) (previousWords : List Word)
    (lists : List (List Word)) (allW : List Word) : List Word :=
  (restoreFold correctedSet rawInputWords vis previousWords lists allW).2.drop
    allW.length

theorem foldl_fixed {α β : Type} (f : β → α → β) (l : List α) (st : β)
    (h : ∀ x ∈ l, ∀ s, f s x = s) : l.foldl f st = st := by
  induction l generalizing st with
  | nil => rfl
  | cons a l ih =>
    rw [List.foldl_cons, h a (List.mem_cons_self a l)]
    exact ih st (fun x hx s => h x (List.mem_cons_of_mem a hx) s)

theorem flatMap_eq_nil_of_forall {α β : Type} (l : List α) (f : α → List β)
    (h : ∀ x ∈ l, f x = []) : l.flatMap f = [] := by
  induction l with
  | nil => rfl
  | cons a l ih =>
    rw [List.flatMap_cons, h a (List.mem_cons_self a l), List.nil_append]
    exact ih (fun x hx => h x (List.mem_cons_of_mem a hx))

theorem correctOne_dict (pws : List Word) (oldFree : Word) (dict : List Word)
    (disap : List Word) (w : Word) (hw : w ∈ dict) (hl : 3 ≤ w.length) :
    correctOne pws oldFree dict disap w = ([w], []) := by
  have hne : ¬(w = []) := by
    intro h
    rw [h] at hl
    simp at hl
  unfold correctOne correctWord
  rw [if_neg (by omega)]
  rw [if_neg hne, if_pos hw]
  simp [hl]

theorem flatMap_correctOne_dict (pws : List Word) (oldFree : Word) (dict : List Word)
    (disap : List Word) (l : List Word) (h : ∀ w ∈ l, w ∈ dict ∧ 3 ≤ w.length) :
    l.flatMap (fun w => (correctOne pws oldFree dict disap w).1) = l := by
  induction l with
  | nil => rfl
  | cons a l ih =>
    obtain ⟨ha1, ha2⟩ := h a (List.mem_cons_self a l)
    rw [List.flatMap_cons, correctOne_dict pws oldFree dict disap a ha1 ha2,
      ih (fun w hw => h w (List.mem_cons_of_mem a hw))]
    rfl

theorem modified_nil_of_dict (pws : List Word) (oldFree : Word) (dict : List Word)
    (disap : List Word) (l : List Word) (h : ∀ w ∈ l, w ∈ dict ∧ 3 ≤ w.length) :
    l.flatMap (fun w => (correctOne pws oldFree dict disap w).2) = [] := by
  apply flatMap_eq_nil_of_forall
  intro w hw
  rw [correctOne_dict pws oldFree dict disap w (h w hw).1 (h w hw).2]

theorem keep_of_not_modified (conf : WordConfidenceTracker) (raw : List Word)
    (dict : List Word) (w : Word) :
    keepAfterConfidence conf raw [] dict w = true := by
  unfold keepAfterConfidence
  rw [if_neg]
  intro h
  exact (List.not_mem_nil w) h.1

/-- Claim C3 (amended): fusing a snapshot equal to the previous fused state
returns the same state and the per-player diff emits no events, provided
every word of the state is a dictionary word (of fused-state length at
least 3).  Quantified over arbitrary tracker states. -/
theorem claim_c3 (payload : GamePayload) (prev : PrevState) (dict : List Word)
    (free : FreeListTracker) (conf : WordConfidenceTracker)
    (vis : WordVisibilityTracker) (freqs : Word → ℚ)
    (hprev : prev.words = payload.wordsPerPlayer.flatten)
    (_hav : prev.availableLetters = payload.availableLetters)
    (hdict : ∀ w ∈ payload.wordsPerPlayer.flatten, w ∈ dict)
    (hlen : ∀ w ∈ payload.wordsPerPlayer.flatten, 3 ≤ w.length) :
    (fuseData payload (some prev) dict free conf vis).1 =
      ⟨payload.wordsPerPlayer, payload.availableLetters⟩ ∧
    (detectChanges payload.wordsPerPlayer
      (fun i => jsUnique (payload.wordsPerPlayer.getD i [])) freqs).1 = [] := by
  constructor
  · have hboth : ∀ w ∈ payload.wordsPerPlayer.flatten, w ∈ dict ∧ 3 ≤ w.length :=
      fun w hw => ⟨hdict w hw, hlen w hw⟩
    have hcorr : ∀ disap, correctedListsOf payload.wordsPerPlayer prev.words
        free.currentFreeList dict disap = payload.wordsPerPlayer := by
      intro disap
      unfold correctedListsOf
      rw [List.map_congr_left (g := id), List.map_id]
      intro pw hpw
      have hsub : ∀ w ∈ pw, w ∈ dict ∧ 3 ≤ w.length := by
        intro w hw
        exact hboth w (List.mem_flatten.mpr ⟨pw, hpw, hw⟩)
      exact flatMap_correctOne_dict _ _ _ _ pw hsub
    have hmod : ∀ disap, modifiedWordsOf payload.wordsPerPlayer prev.words
        free.currentFreeList dict disap = [] := by
      intro disap
      exact modified_nil_of_dict _ _ _ _ _ hboth
    have hfiltered : ∀ conf2 raw dict2,
        payload.wordsPerPlayer.map (fun pw =>
          pw.filter (keepAfterConfidence conf2 raw [] dict2)) =
        payload.wordsPerPlayer := by
      intro conf2 raw dict2
      rw [List.map_congr_left (g := id), List.map_id]
      intro pw _
      exact List.filter_eq_self.mpr (fun w _ => keep_of_not_modified conf2 raw dict2 w)
    have hrestore : ∀ vis2 lists,
        restoreFold payload.wordsPerPlayer.flatten payload.wordsPerPlayer.flatten
          vis2 prev.words lists payload.wordsPerPlayer.flatten =
          (lists, payload.wordsPerPlayer.flatten) := by
      intro vis2 lists
      unfold restoreFold
      apply foldl_fixed
      intro x hx s
      rw [hprev] at hx
      unfold restoreStep
      by_cases hx3 : x.length < 3
      · rw [if_pos hx3]
      · rw [if_neg hx3, if_pos hx]
    have hfin : ∀ pw ∈ payload.wordsPerPlayer,
        pw.filter (fun w => decide (3 ≤ w.length)) = pw := by
      intro pw hpw
      exact List.filter_eq_self.mpr (fun w hw => by
        simpa using hlen w (List.mem_flatten.mpr ⟨pw, hpw, hw⟩))
    show (fuseData payload (some prev) dict free conf vis).1 = _
    unfold fuseData
    simp only [Option.map_some', Option.getD_some]
    rw [hcorr, hmod, hfiltered, hrestore]
    have hfl : payload.wordsPerPlayer.map
        (fun ws => ws.filter (fun w => decide (3 ≤ w.length))) =
        payload.wordsPerPlayer := by
      rw [List.map_congr_left (g := id), List.map_id]
      intro pw hpw
      exact hfin pw hpw
    rw [hfl]
  · unfold detectChanges
    apply flatMap_eq_nil_of_forall
    intro j _
    have hadd : (payload.wordsPerPlayer.getD j []).filter
        (fun x => decide (x ∉ jsUnique (payload.wordsPerPlayer.getD j []))) = [] := by
      rw [List.filter_eq_nil_iff]
      intro w hw
      simp only [decide_eq_true_eq, Decidable.not_not]
      exact (jsUnique_mem _ w).mpr hw
    have hrem : (jsUnique (payload.wordsPerPlayer.getD j [])).filter
        (fun x => decide (x ∉ payload.wordsPerPlayer.getD j [])) = [] := by
      rw [List.filter_eq_nil_iff]
      intro w hw
      simp only [decide_eq_true_eq, Decidable.not_not]
      exact (jsUnique_mem _ w).mp hw
    simp only [hadd, hrem, List.map_nil, List.append_nil]

/-- Witness for C3: one player holding cat with loose letters o r, the
dictionary containing cat; fusing the same snapshot again is the identity
and the diff is silent. -/
theorem claim_c3_witness :
    (fuseData ⟨[[[2, 0, 19]]], [14, 17]⟩ (some ⟨[[2, 0, 19]], [14, 17]⟩)
        [[2, 0, 19]] ⟨[], []⟩ ⟨[]⟩ ⟨[]⟩).1 =
      ⟨[[[2, 0, 19]]], [14, 17]⟩ ∧
    (detectChanges [[[2, 0, 19]]]
      (fun i => jsUnique (([[[2, 0, 19]]] : List (List Word)).getD i []))
      (fun _ => 0)).1 = [] :=
  claim_c3 ⟨[[[2, 0, 19]]], [14, 17]⟩ ⟨[[2, 0, 19]], [14, 17]⟩ [[2, 0, 19]]
    ⟨[], []⟩ ⟨[]⟩ ⟨[]⟩ (fun _ => 0) (by decide) (by decide) (by decide) (by decide)

/-- Restored words are appended to the head list; later lists are untouched. -/
def applyRestoreHead (lists : List (List Word)) (r : List Word) : List (List Word) :=
  match lists with
  | [] => []
  | h :: t => (h ++ r) :: t

/-- Full characterization of the restoration fold: the evolving corrected
list only grows by the restored suffix, every restored word goes to the
first player list, and each restored word passed all the loop's guards. -/
theorem restoreFold_spec (cs raw : List Word) (vis : WordVisibilityTracker) :
    ∀ (pws : List Word) (lists : List (List Word)) (allW : List Word),
    (restoreFold cs raw vis pws lists allW).2 =
        allW ++ (restoreFold cs raw vis pws lists allW).2.drop allW.length ∧
    (restoreFold cs raw vis pws lists allW).1 =
        applyRestoreHead lists ((restoreFold cs raw vis pws lists allW).2.drop allW.length) ∧
    (∀ w ∈ (restoreFold cs raw vis pws lists allW).2.drop allW.length,
      w ∈ pws ∧ 3 ≤ w.length ∧ w ∉ cs ∧
      raw.any (fun r => areWordsSimilar w r) = false ∧
      visSeen vis w = true ∧
      allW.any (fun c => jsIncludes c w || jsIncludes w c) = false) := by
  intro pws
  induction pws with
  | nil =>
    intro lists allW
    refine ⟨by simp [restoreFold, List.drop_length], ?_, by simp [restoreFold, List.drop_length]⟩
    rcases lists with _ | ⟨h, t⟩ <;> simp [restoreFold, applyRestoreHead, List.drop_length]
  | cons p pws ih =>
    intro lists allW
    have hfold : restoreFold cs raw vis (p :: pws) lists allW =
        restoreFold cs raw vis pws (restoreStep cs raw vis (lists, allW) p).1
          (restoreStep cs raw vis (lists, allW) p).2 := rfl
    have hskip : restoreStep cs raw vis (lists, allW) p = (lists, allW) →
        (restoreFold cs raw vis (p :: pws) lists allW).2 =
            allW ++ (restoreFold cs raw vis (p :: pws) lists allW).2.drop allW.length ∧
        (restoreFold cs raw vis (p :: pws) lists allW).1 =
            applyRestoreHead lists
              ((restoreFold cs raw vis (p :: pws) lists allW).2.drop allW.length) ∧
        (∀ w ∈ (restoreFold cs raw vis (p :: pws) lists allW).2.drop allW.length,
          w ∈ p :: pws ∧ 3 ≤ w.length ∧ w ∉ cs ∧
          raw.any (fun r => areWordsSimilar w r) = false ∧
          visSeen vis w = true ∧
          allW.any (fun c => jsIncludes c w || jsIncludes w c) = false) := by
      intro hstep
      have heq : restoreFold cs raw vis (p :: pws) lists allW =
          restoreFold cs raw vis pws lists allW := by
        rw [hfold, hstep]
      rw [heq]
      obtain ⟨i1, i2, i3⟩ := ih lists allW
      refine ⟨i1, i2, ?_⟩
      intro w hw
      obtain ⟨a, b, c, d, e, f⟩ := i3 w hw
      exact ⟨List.mem_cons_of_mem p a, b, c, d, e, f⟩
    by_cases h1 : p.length < 3
    · exact hskip (by simp [restoreStep, h1])
    by_cases h2 : p ∈ cs
    · exact hskip (by simp [restoreStep, h1, h2])
    by_cases h3 : allW.any (fun c => jsIncludes c p || jsIncludes p c) = true
    · exact hskip (by simp [restoreStep, h1, h2, h3])
    by_cases h4 : raw.any (fun r => areWordsSimilar p r) = true
    · exact hskip (by simp [restoreStep, h1, h2, h3, h4])
    by_cases h5 : visSeen vis p = true
    · rcases lists with _ | ⟨h, t⟩
      · exact hskip (by simp [restoreStep, h1, h2, h3, h4, h5])
      · have hstep : restoreStep cs raw vis (h :: t, allW) p =
            ((h ++ [p]) :: t, allW ++ [p]) := by
          simp [restoreStep, h1, h2, h3, h4, h5]
        have heq : restoreFold cs raw vis (p :: pws) (h :: t) allW =
            restoreFold cs raw vis pws ((h ++ [p]) :: t) (allW ++ [p]) := by
          rw [hfold, hstep]
        obtain ⟨i1, i2, i3⟩ := ih ((h ++ [p]) :: t) (allW ++ [p])
        set rest :=
          (restoreFold cs raw vis pws ((h ++ [p]) :: t) (allW ++ [p])).2.drop
            (allW ++ [p]).length with hrest
        have hdrop : (restoreFold cs raw vis pws ((h ++ [p]) :: t)
            (allW ++ [p])).2.drop allW.length = p :: rest := by
          rw [i1, List.append_assoc, List.drop_left]
          rfl
        refine ⟨?_, ?_, ?_⟩
        · show (restoreFold cs raw vis (p :: pws) (h :: t) allW).2 = _
          rw [heq, hdrop, i1, List.append_assoc]
          rfl
        · show (restoreFold cs raw vis (p :: pws) (h :: t) allW).1 =
            applyRestoreHead (h :: t)
              ((restoreFold cs raw vis (p :: pws) (h :: t) allW).2.drop allW.length)
          rw [heq, hdrop, i2]
          simp [applyRestoreHead]
        · intro w hw
          rw [heq, hdrop] at hw
          rcases List.mem_cons.mp hw with hweq | hwrest
          · subst hweq
            refine ⟨List.mem_cons_self w pws, by omega, h2, ?_, h5, ?_⟩
            · simpa using h4
            · simpa using h3
          · obtain ⟨a, b, c, d, e, f⟩ := i3 w hwrest
            refine ⟨List.mem_cons_of_mem p a, b, c, d, e, ?_⟩
            rw [List.any_append] at f
            exact (Bool.or_eq_false_iff.mp f).1
    · exact hskip (by simp [restoreStep, h1, h2, h3, h4, h5])

/-- The previous-state word list as `fuseData` reads it. -/
def fusionPrevWords (previousState : Option PrevState) : List Word :=
  (previousState.map PrevState.words).getD []

/-- The per-player word lists after correction (step 2) and the confidence
filter (step 2.5), right before restoration. -/
def fusionFiltered (payload : GamePayload) (previousState : Option PrevState)
    (dict : List Word) (free : FreeListTracker) (conf : WordConfidenceTracker) :
    List (List Word) :=
  (correctedListsOf payload.wordsPerPlayer (fusionPrevWords previousState)
      free.currentFreeList dict
      (disappearedOf (fusionPrevWords previousState) payload.wordsPerPlayer.flatten)).map
    (fun pw => pw.filter (keepAfterConfidence conf payload.wordsPerPlayer.flatten
      (modifiedWordsOf payload.wordsPerPlayer (fusionPrevWords previousState)
        free.currentFreeList dict
        (disappearedOf (fusionPrevWords previousState) payload.wordsPerPlayer.flatten))
      dict))

/-- The visibility tracker after recording the current raw call. -/
def fusionVis2 (payload : GamePayload) (vis : WordVisibilityTracker) :
    WordVisibilityTracker :=
  ⟨pushRing vis.rawWordCalls payload.wordsPerPlayer.flatten⟩

/-- The words the restoration loop of one `fuseData` run appends. -/
def fusionRestored (payload : GamePayload) (previousState : Option PrevState)
    (dict : List Word) (free : FreeListTracker) (conf : WordConfidenceTracker)
    (vis : WordVisibilityTracker) : List Word :=
  restoredWordsOf (fusionFiltered payload previousState dict free conf).flatten
    payload.wordsPerPlayer.flatten (fusionVis2 payload vis)
    (fusionPrevWords previousState)
    (fusionFiltered payload previousState dict free conf)
    (fusionFiltered payload previousState dict free conf).flatten

/-- Claim C10: every restored previous-state word is appended to the first
player's word list (the later lists are exactly the filtered corrected
lists, untouched by restoration), each restored word passed the
restoration guards (length at least 3, absent from the corrected set, no
substring subsumption, no one-edit-similar raw word, seen in the last two
raw snapshots), and a snapshot with zero player lists restores nothing. -/
theorem claim_c10 (payload : GamePayload) (previousState : Option PrevState)
    (dict : List Word) (free : FreeListTracker) (conf : WordConfidenceTracker)
    (vis : WordVisibilityTracker) :
    ((fuseData payload previousState dict free conf vis).1.players =
      (applyRestoreHead (fusionFiltered payload previousState dict free conf)
        (fusionRestored payload previousState dict free conf vis)).map
        (fun ws => ws.filter (fun w => decide (3 ≤ w.length)))) ∧
    (payload.wordsPerPlayer = [] →
      (fuseData payload previousState dict free conf vis).1.players = []) ∧
    (∀ w ∈ fusionRestored payload previousState dict free conf vis,
      w ∈ fusionPrevWords previousState ∧ 3 ≤ w.length ∧
      w ∉ (fusionFiltered payload previousState dict free conf).flatten ∧
      payload.wordsPerPlayer.flatten.any (fun r => areWordsSimilar w r) = false ∧
      visSeen (fusionVis2 payload vis) w = true ∧
      (fusionFiltered payload previousState dict free conf).flatten.any
        (fun c => jsIncludes c w || jsIncludes w c) = false) := by
  obtain ⟨s1, s2, s3⟩ := restoreFold_spec
    (fusionFiltered payload previousState dict free conf).flatten
    payload.wordsPerPlayer.flatten (fusionVis2 payload vis)
    (fusionPrevWords previousState)
    (fusionFiltered payload previousState dict free conf)
    (fusionFiltered payload previousState dict free conf).flatten
  have hplayers : (fuseData payload previousState dict free conf vis).1.players =
      (restoreFold (fusionFiltered payload previousState dict free conf).flatten
        payload.wordsPerPlayer.flatten (fusionVis2 payload vis)
        (fusionPrevWords previousState)
        (fusionFiltered payload previousState dict free conf)
        (fusionFiltered payload previousState dict free conf).flatten).1.map
        (fun ws => ws.filter (fun w => decide (3 ≤ w.length))) := rfl
  have hrest : fusionRestored payload previousState dict free conf vis =
      (restoreFold (fusionFiltered payload previousState dict free conf).flatten
        payload.wordsPerPlayer.flatten (fusionVis2 payload vis)
        (fusionPrevWords previousState)
        (fusionFiltered payload previousState dict free conf)
        (fusionFiltered payload previousState dict free conf).flatten).2.drop
        (fusionFiltered payload previousState dict free conf).flatten.length := rfl
  refine ⟨?_, ?_, ?_⟩
  · rw [hplayers, s2, ← hrest]
  · intro hnil
    rw [hplayers, s2, ← hrest]
    have hnilf : fusionFiltered payload previousState dict free conf = [] := by
      unfold fusionFiltered correctedListsOf
      rw [hnil]
      rfl
    rw [hnilf]
    rfl
  · intro w hw
    rw [hrest] at hw
    exact s3 w hw

/-- Witness for C10: previous state holds dog (seen in the ring), current
snapshot is one player with cat; dog is restored into the first player's
list. -/
theorem claim_c10_witness :
    ((fuseData ⟨[[[2, 0, 19]]], []⟩ (some ⟨[[3, 14, 6]], []⟩) [[2, 0, 19], [3, 14, 6]]
        ⟨[], []⟩ ⟨[]⟩ ⟨[[[3, 14, 6]]]⟩).1.players =
      (applyRestoreHead (fusionFiltered ⟨[[[2, 0, 19]]], []⟩ (some ⟨[[3, 14, 6]], []⟩)
          [[2, 0, 19], [3, 14, 6]] ⟨[], []⟩ ⟨[]⟩)
        (fusionRestored ⟨[[[2, 0, 19]]], []⟩ (some ⟨[[3, 14, 6]], []⟩)
          [[2, 0, 19], [3, 14, 6]] ⟨[], []⟩ ⟨[]⟩ ⟨[[[3, 14, 6]]]⟩)).map
        (fun ws => ws.filter (fun w => decide (3 ≤ w.length)))) ∧
    (fuseData ⟨[[[2, 0, 19]]], []⟩ (some ⟨[[3, 14, 6]], []⟩) [[2, 0, 19], [3, 14, 6]]
        ⟨[], []⟩ ⟨[]⟩ ⟨[[[3, 14, 6]]]⟩).1.players = [[[2, 0, 19], [3, 14, 6]]] ∧
    (∀ w ∈ fusionRestored ⟨[[[2, 0, 19]]], []⟩ (some ⟨[[3, 14, 6]], []⟩)
        [[2, 0, 19], [3, 14, 6]] ⟨[], []⟩ ⟨[]⟩ ⟨[[[3, 14, 6]]]⟩,
      w ∈ fusionPrevWords (some ⟨[[3, 14, 6]], []⟩) ∧ 3 ≤ w.length) :=
  ⟨(claim_c10 ⟨[[[2, 0, 19]]], []⟩ (some ⟨[[3, 14, 6]], []⟩) [[2, 0, 19], [3, 14, 6]]
      ⟨[], []⟩ ⟨[]⟩ ⟨[[[3, 14, 6]]]⟩).1,
    by decide,
    fun w hw =>
      ⟨((claim_c10 ⟨[[[2, 0, 19]]], []⟩ (some ⟨[[3, 14, 6]], []⟩) [[2, 0, 19], [3, 14, 6]]
          ⟨[], []⟩ ⟨[]⟩ ⟨[[[3, 14, 6]]]⟩).2.2 w hw).1,
        ((claim_c10 ⟨[[[2, 0, 19]]], []⟩ (some ⟨[[3, 14, 6]], []⟩) [[2, 0, 19], [3, 14, 6]]
          ⟨[], []⟩ ⟨[]⟩ ⟨[[[3, 14, 6]]]⟩).2.2 w hw).2.1⟩⟩

/-!
Worker message loop (worker.js lines 226-292).  Mutable module state is a
`WorkerState` value; the one message kind the claims concern is
`game-state`.  The solver step (the `processGameState` call and the
scoring that follows it) is abstracted as a function returning an
`Except`-valued outcome together with the subset-cache value the call
leaves behind, so that the source's try/catch can be modelled: a `.error`
outcome stands for a thrown exception, which the catch turns into an
`ok:false` reply without rolling back any of the state mutations already
performed — including `processGameState`'s in-place writes to the
module-level `subsetCache`, which happen before the candidate loop and
survive a later throw.  The returned cache component is therefore kept in
both the success and the failure branch. -/
structure WorkerState where
  subsetCache : Option SubsetCacheU8
  lastState : Option GamePayload
  previousFused : Option PrevState
  free : FreeListTracker
  conf : WordConfidenceTracker
  vis : WordVisibilityTracker
  prevWordsByPlayer : Nat → List Word
  aggregator : Aggregator

/-- The worker's reply message: `ok:true` with a result or `ok:false` with
the error text. -/
inductive WorkerReply where
  | ok (result : GameResult)
  | err (error : String)
  deriving DecidableEq

/-- The `game-state` branch of the worker's message handler: fuse (which
updates the free-list, confidence and visibility trackers), diff and log
(which updates the previous-words map and the aggregator), store the
previous fused state, store `lastState` (the fused payload carries no delta
fields, so `applyPayload` takes its non-delta path), and only then run the
solver; the catch replies with the error and keeps all prior mutations,
including whatever the solver call wrote into the subset cache before
throwing. -/
def workerHandleGameState
    (solver : GamePayload → Option SubsetCacheU8 →
      Except String GameResult × Option SubsetCacheU8)
    (dict : List Word) (freqs : Word → ℚ) (st : WorkerState) (payload : GamePayload) :
    WorkerReply × WorkerState :=
  let fu := fuseData payload st.previousFused dict st.free st.conf st.vis
  let fusedPayload : GamePayload := ⟨fu.1.players, fu.1.availableLetters⟩
  let det := detectChanges fu.1.players st.prevWordsByPlayer freqs
  let agg2 := det.1.foldl logEvent st.aggregator
  let prevFused2 : Option PrevState :=
    some ⟨fu.1.players.flatten, fu.1.availableLetters⟩
  let sres := solver fusedPayload st.subsetCache
  match sres.1 with
  | .ok r =>
    (.ok r,
      ⟨sres.2, some fusedPayload, prevFused2, fu.2.1, fu.2.2.1, fu.2.2.2,
        det.2, agg2⟩)
  | .error e =>
    (.err e,
      ⟨sres.2, some fusedPayload, prevFused2, fu.2.1, fu.2.2.1, fu.2.2.2,
        det.2, agg2⟩)

/-- The conditions under which mask `m` of the scan in
`findOneConstruction` yields a construction. -/
def goodMask (tc avail : LCounts) (wcs : List LCounts) (t : SubsetTables)
    (m : Nat) : Prop :=
  t.counts m ≤ tc ∧ tc - t.counts m ≤ avail ∧
  2 ≤ (t.words m).length + Multiset.card (tc - t.counts m) ∧
  ¬((t.words m).length = 0 ∧ 0 < Multiset.card (tc - t.counts m) ∧
    ∃ wc ∈ wcs, wc = tc - t.counts m)

theorem tryMask_isSome_iff (tc avail : LCounts) (wcs : List LCounts)
    (t : SubsetTables) (m : Nat) :
    (tryMask tc avail wcs t m).isSome ↔ goodMask tc avail wcs t m := by
  unfold tryMask goodMask
  split_ifs with h1 h2 h3 h4
  · refine iff_of_false (by simp) ?_
    rintro ⟨_, _, _, hno⟩
    refine hno ⟨h4.1, h4.2.1, ?_⟩
    have := h4.2.2
    rw [List.any_eq_true] at this
    obtain ⟨wc, hwc, he⟩ := this
    exact ⟨wc, hwc, by simpa using he⟩
  · refine iff_of_true (by simp) ⟨h1, h2, h3, ?_⟩
    rintro ⟨a, b, hex⟩
    refine h4 ⟨a, b, ?_⟩
    rw [List.any_eq_true]
    obtain ⟨wc, hwc, he⟩ := hex
    exact ⟨wc, hwc, by simpa using he⟩
  · refine iff_of_false (by simp) ?_
    rintro ⟨_, _, hc, _⟩
    exact h3 hc
  · refine iff_of_false (by simp) ?_
    rintro ⟨_, hc, _, _⟩
    exact h2 hc
  · refine iff_of_false (by simp) ?_
    rintro ⟨hc, _, _, _⟩
    exact h1 hc

theorem maskScan_isSome_iff (tc avail : LCounts) (wcs : List LCounts)
    (t : SubsetTables) (n : Nat) :
    (maskScan tc avail wcs t n).isSome ↔ ∃ m < n, goodMask tc avail wcs t m := by
  induction n with
  | zero => simp [maskScan]
  | succ n ih =>
    unfold maskScan
    rcases htr : tryMask tc avail wcs t n with _ | c
    · simp only [htr]
      rw [ih]
      constructor
      · rintro ⟨m, hm, hg⟩
        exact ⟨m, Nat.lt_succ_of_lt hm, hg⟩
      · rintro ⟨m, hm, hg⟩
        rcases Nat.lt_succ_iff_lt_or_eq.mp hm with hm2 | hm2
        · exact ⟨m, hm2, hg⟩
        · subst hm2
          have := (tryMask_isSome_iff tc avail wcs t m).mpr hg
          rw [htr] at this
          simp at this
    · simp only [htr]
      refine iff_of_true (by simp) ⟨n, Nat.lt_succ_self n, ?_⟩
      have : (tryMask tc avail wcs t n).isSome := by rw [htr]; rfl
      exact (tryMask_isSome_iff tc avail wcs t n).mp this

theorem findOneConstruction_isSome_iff (ws : List Word) (avail : LCounts)
    (wcs : List LCounts) (tc : LCounts) (t : SubsetTables) :
    (findOneConstruction ws avail wcs tc t).isSome ↔
      (tc ≤ avail ∧ 2 ≤ Multiset.card tc ∧
        ¬(0 < ws.length ∧ ∃ wc ∈ wcs, wc = tc)) ∨
      ∃ m < t.numMasks, goodMask tc avail wcs t m := by
  have hcond : (tc ≤ avail ∧ 2 ≤ Multiset.card tc ∧
      ¬(0 < ws.length ∧ (wcs.any (fun wc => wc = tc)) = true)) ↔
      (tc ≤ avail ∧ 2 ≤ Multiset.card tc ∧
        ¬(0 < ws.length ∧ ∃ wc ∈ wcs, wc = tc)) := by
    constructor
    · rintro ⟨a, b, hno⟩
      refine ⟨a, b, ?_⟩
      rintro ⟨hp, wc, hwc, he⟩
      exact hno ⟨hp, List.any_eq_true.mpr ⟨wc, hwc, by simpa using he⟩⟩
    · rintro ⟨a, b, hno⟩
      refine ⟨a, b, ?_⟩
      rintro ⟨hp, hany⟩
      rw [List.any_eq_true] at hany
      obtain ⟨wc, hwc, he⟩ := hany
      exact hno ⟨hp, wc, hwc, by simpa using he⟩
  unfold findOneConstruction
  split_ifs with hfast
  · exact iff_of_true (by simp) (Or.inl (hcond.mp hfast))
  · rw [maskScan_isSome_iff]
    constructor
    · exact Or.inr
    · rintro (hl | hr)
      · exact absurd (hcond.mpr hl) hfast
      · exact hr

/-- Semantic existence of a construction over a unique-word list: either the
letters-only fast path fires, or some sub-collection of the player words
works.  This depends only on the multiset of player words. -/
def consExists (ws : List Word) (avail tc : LCounts) : Prop :=
  (tc ≤ avail ∧ 2 ≤ Multiset.card tc ∧
    ¬(0 < ws.length ∧ ∃ wc ∈ ws.map letterCounts, wc = tc)) ∨
  ∃ l : List Word, l.Sublist ws ∧
    ((l.map letterCounts).sum ≤ tc ∧
     tc - (l.map letterCounts).sum ≤ avail ∧
     2 ≤ l.length + Multiset.card (tc - (l.map letterCounts).sum) ∧
     ¬(l.length = 0 ∧ 0 < Multiset.card (tc - (l.map letterCounts).sum) ∧
       ∃ wc ∈ ws.map letterCounts, wc = tc - (l.map letterCounts).sum))

theorem sublist_eq_maskWords {l ws : List Word} (h : l.Sublist ws) :
    ∃ m < 2 ^ ws.length, maskWords ws m = l := by
  induction h with
  | slnil => exact ⟨0, by norm_num, rfl⟩
  | @cons l₁ l₂ a _ ih =>
    obtain ⟨m, hm, he⟩ := ih
    refine ⟨2 * m, ?_, ?_⟩
    · have h2 : 2 ^ (l₂.length + 1) = 2 ^ l₂.length * 2 := pow_succ 2 l₂.length
      simp only [List.length_cons, h2]
      omega
    · show (if (2 * m) % 2 = 1 then [a] else []) ++ maskWords l₂ (2 * m / 2) = l₁
      rw [Nat.mul_mod_right, Nat.mul_div_cancel_left m (by norm_num : 0 < 2)]
      simp [he]
  | @cons₂ l₁ l₂ a _ ih =>
    obtain ⟨m, hm, he⟩ := ih
    refine ⟨2 * m + 1, ?_, ?_⟩
    · have h2 : 2 ^ (l₂.length + 1) = 2 ^ l₂.length * 2 := pow_succ 2 l₂.length
      simp only [List.length_cons, h2]
      omega
    · show (if (2 * m + 1) % 2 = 1 then [a] else []) ++ maskWords l₂ ((2 * m + 1) / 2) = a :: l₁
      rw [Nat.mul_add_mod, Nat.mul_add_div (by norm_num : 0 < 2)]
      simp [he]

theorem exists_mask_iff (ws : List Word) (P : List Word → Prop) :
    (∃ m < 2 ^ ws.length, P (maskWords ws m)) ↔ ∃ l : List Word, l.Sublist ws ∧ P l := by
  constructor
  · rintro ⟨m, _, hp⟩
    exact ⟨maskWords ws m, maskWords_sublist ws m, hp⟩
  · rintro ⟨l, hsub, hp⟩
    obtain ⟨m, hm, he⟩ := sublist_eq_maskWords hsub
    exact ⟨m, hm, he.symm ▸ hp⟩

/-- With freshly precomputed tables, `findOneConstruction` succeeds exactly
when a construction exists semantically. -/
theorem cold_isSome_iff (ws : List Word) (avail tc : LCounts) :
    (findOneConstruction ws avail (ws.map letterCounts) tc
      (precomputeTables ws)).isSome ↔ consExists ws avail tc := by
  rw [findOneConstruction_isSome_iff]
  unfold consExists
  apply or_congr Iff.rfl
  show (∃ m < (precomputeTables ws).numMasks, goodMask tc avail _ _ m) ↔ _
  have hnum : (precomputeTables ws).numMasks = 2 ^ ws.length := rfl
  rw [hnum]
  have hgm : ∀ m, goodMask tc avail (ws.map letterCounts) (precomputeTables ws) m ↔
      (((maskWords ws m).map letterCounts).sum ≤ tc ∧
       tc - ((maskWords ws m).map letterCounts).sum ≤ avail ∧
       2 ≤ (maskWords ws m).length +
         Multiset.card (tc - ((maskWords ws m).map letterCounts).sum) ∧
       ¬((maskWords ws m).length = 0 ∧
         0 < Multiset.card (tc - ((maskWords ws m).map letterCounts).sum) ∧
         ∃ wc ∈ ws.map letterCounts,
           wc = tc - ((maskWords ws m).map letterCounts).sum)) := by
    intro m
    unfold goodMask
    have hc : (precomputeTables ws).counts m = ((maskWords ws m).map letterCounts).sum :=
      (sum_maskWords ws m).symm
    have hw : (precomputeTables ws).words m = maskWords ws m := rfl
    rw [hc, hw]
  rw [exists_congr (fun m => and_congr Iff.rfl (hgm m))]
  exact exists_mask_iff ws (fun l =>
    ((l.map letterCounts).sum ≤ tc ∧
     tc - (l.map letterCounts).sum ≤ avail ∧
     2 ≤ l.length + Multiset.card (tc - (l.map letterCounts).sum) ∧
     ¬(l.length = 0 ∧ 0 < Multiset.card (tc - (l.map letterCounts).sum) ∧
       ∃ wc ∈ ws.map letterCounts, wc = tc - (l.map letterCounts).sum)))

/-- `consExists` only depends on the player words up to permutation. -/
theorem consExists_perm {ws₁ ws₂ : List Word} (hp : ws₁.Perm ws₂)
    (avail tc : LCounts) : consExists ws₁ avail tc ↔ consExists ws₂ avail tc := by
  have hmemc : ∀ wc, wc ∈ ws₁.map letterCounts ↔ wc ∈ ws₂.map letterCounts :=
    fun wc => (hp.map letterCounts).mem_iff
  have hlen : ws₁.length = ws₂.length := hp.length_eq
  have hone : ∀ {wsa wsb : List Word}, wsa.Perm wsb →
      (∃ l : List Word, l.Sublist wsa ∧
        ((l.map letterCounts).sum ≤ tc ∧
         tc - (l.map letterCounts).sum ≤ avail ∧
         2 ≤ l.length + Multiset.card (tc - (l.map letterCounts).sum) ∧
         ¬(l.length = 0 ∧ 0 < Multiset.card (tc - (l.map letterCounts).sum) ∧
           ∃ wc ∈ wsa.map letterCounts, wc = tc - (l.map letterCounts).sum))) →
      (∃ l : List Word, l.Sublist wsb ∧
        ((l.map letterCounts).sum ≤ tc ∧
         tc - (l.map letterCounts).sum ≤ avail ∧
         2 ≤ l.length + Multiset.card (tc - (l.map letterCounts).sum) ∧
         ¬(l.length = 0 ∧ 0 < Multiset.card (tc - (l.map letterCounts).sum) ∧
           ∃ wc ∈ wsb.map letterCounts, wc = tc - (l.map letterCounts).sum))) := by
    intro wsa wsb hab
    rintro ⟨l, hsub, h1, h2, h3, h4⟩
    have hsp : l.Subperm wsb := (hsub.subperm).trans hab.subperm
    obtain ⟨l2, hl2p, hl2s⟩ := hsp
    have hsum : (l2.map letterCounts).sum = (l.map letterCounts).sum :=
      (hl2p.map letterCounts).sum_eq
    have hlen2 : l2.length = l.length := hl2p.length_eq
    refine ⟨l2, hl2s, ?_, ?_, ?_, ?_⟩
    · rw [hsum]; exact h1
    · rw [hsum]; exact h2
    · rw [hsum, hlen2]; exact h3
    · rw [hsum, hlen2]
      intro hcon
      obtain ⟨a, b, wc, hwc, he⟩ := hcon
      exact h4 ⟨a, b, wc, ((hab.map letterCounts).mem_iff).mpr hwc, he⟩
  unfold consExists
  constructor
  · rintro (hf | he)
    · refine Or.inl ⟨hf.1, hf.2.1, ?_⟩
      rintro ⟨hl, wc, hwc, hce⟩
      exact hf.2.2 ⟨hlen ▸ hl, wc, (hmemc wc).mpr hwc, hce⟩
    · exact Or.inr (hone hp he)
  · rintro (hf | he)
    · refine Or.inl ⟨hf.1, hf.2.1, ?_⟩
      rintro ⟨hl, wc, hwc, hce⟩
      exact hf.2.2 ⟨hlen ▸ hl, wc, (hmemc wc).mp hwc, hce⟩
    · exact Or.inr (hone hp.symm he)

theorem maskCounts_append (cs : List LCounts) (c : LCounts) (m : Nat) :
    maskCounts (cs ++ [c]) m =
      maskCounts cs m + (if (m / 2 ^ cs.length) % 2 = 1 then c else 0) := by
  induction cs generalizing m with
  | nil =>
    show (if m % 2 = 1 then c else 0) + maskCounts [] (m / 2) =
      0 + (if (m / 2 ^ 0) % 2 = 1 then c else 0)
    simp [maskCounts]
  | cons c0 cs ih =>
    show (if m % 2 = 1 then c0 else 0) + maskCounts (cs ++ [c]) (m / 2) =
      ((if m % 2 = 1 then c0 else 0) + maskCounts cs (m / 2)) +
        (if (m / 2 ^ (cs.length + 1)) % 2 = 1 then c else 0)
    rw [ih (m / 2), ← add_assoc]
    have hd : m / 2 / 2 ^ cs.length = m / 2 ^ (cs.length + 1) := by
      have h2 : (2 : Nat) * 2 ^ cs.length = 2 ^ (cs.length + 1) := by
        rw [pow_succ, Nat.mul_comm]
      rw [Nat.div_div_eq_div_mul, h2]
    rw [hd]

theorem maskWords_append (ws : List Word) (w : Word) (m : Nat) :
    maskWords (ws ++ [w]) m =
      maskWords ws m ++ (if (m / 2 ^ ws.length) % 2 = 1 then [w] else []) := by
  induction ws generalizing m with
  | nil =>
    show (if m % 2 = 1 then [w] else []) ++ maskWords [] (m / 2) =
      [] ++ (if (m / 2 ^ 0) % 2 = 1 then [w] else [])
    simp [maskWords]
  | cons w0 ws ih =>
    show (if m % 2 = 1 then [w0] else []) ++ maskWords (ws ++ [w]) (m / 2) =
      ((if m % 2 = 1 then [w0] else []) ++ maskWords ws (m / 2)) ++
        (if (m / 2 ^ (ws.length + 1)) % 2 = 1 then [w] else [])
    rw [ih (m / 2), ← List.append_assoc]
    have hd : m / 2 / 2 ^ ws.length = m / 2 ^ (ws.length + 1) := by
      have h2 : (2 : Nat) * 2 ^ ws.length = 2 ^ (ws.length + 1) := by
        rw [pow_succ, Nat.mul_comm]
      rw [Nat.div_div_eq_div_mul, h2]
    rw [hd]

theorem maskCounts_mod (cs : List LCounts) (m : Nat) :
    maskCounts cs (m % 2 ^ cs.length) = maskCounts cs m := by
  induction cs generalizing m with
  | nil => rfl
  | cons c cs ih =>
    show (if (m % 2 ^ (cs.length + 1)) % 2 = 1 then c else 0) +
        maskCounts cs ((m % 2 ^ (cs.length + 1)) / 2) =
      (if m % 2 = 1 then c else 0) + maskCounts cs (m / 2)
    have h1 : (m % 2 ^ (cs.length + 1)) % 2 = m % 2 :=
      Nat.mod_mod_of_dvd m (dvd_pow_self 2 (Nat.succ_ne_zero cs.length))
    have h2 : (m % 2 ^ (cs.length + 1)) / 2 = (m / 2) % 2 ^ cs.length := by
      have he : (2 : Nat) ^ (cs.length + 1) = 2 * 2 ^ cs.length := by
        rw [pow_succ, Nat.mul_comm]
      rw [he, Nat.mod_mul_right_div_self]
    rw [h1, h2, ih]

theorem maskWords_mod (ws : List Word) (m : Nat) :
    maskWords ws (m % 2 ^ ws.length) = maskWords ws m := by
  induction ws generalizing m with
  | nil => rfl
  | cons w ws ih =>
    show (if (m % 2 ^ (ws.length + 1)) % 2 = 1 then [w] else []) ++
        maskWords ws ((m % 2 ^ (ws.length + 1)) / 2) =
      (if m % 2 = 1 then [w] else []) ++ maskWords ws (m / 2)
    have h1 : (m % 2 ^ (ws.length + 1)) % 2 = m % 2 :=
      Nat.mod_mod_of_dvd m (dvd_pow_self 2 (Nat.succ_ne_zero ws.length))
    have h2 : (m % 2 ^ (ws.length + 1)) / 2 = (m / 2) % 2 ^ ws.length := by
      have he : (2 : Nat) ^ (ws.length + 1) = 2 * 2 ^ ws.length := by
        rw [pow_succ, Nat.mul_comm]
      rw [he, Nat.mod_mul_right_div_self]
    rw [h1, h2, ih]

theorem ext_counts_eq (os : List Word) (nw : Word) (sc : Nat → LCounts)
    (hsc : ∀ m < 2 ^ os.length, sc m = maskCounts (os.map letterCounts) m)
    (m : Nat) (hm : m < 2 ^ (os.length + 1)) :
    (if m < 2 ^ os.length then sc m
      else sc (m % 2 ^ os.length) + letterCounts nw) =
      maskCounts ((os ++ [nw]).map letterCounts) m := by
  have hmap : (os ++ [nw]).map letterCounts =
      os.map letterCounts ++ [letterCounts nw] := by simp
  have hlenm : (os.map letterCounts).length = os.length := List.length_map os letterCounts
  rw [hmap, maskCounts_append, hlenm]
  by_cases h : m < 2 ^ os.length
  · rw [if_pos h, hsc m h, Nat.div_eq_of_lt h]
    simp
  · rw [if_neg h]
    have hlow : m % 2 ^ os.length < 2 ^ os.length :=
      Nat.mod_lt m (pow_pos (by norm_num) os.length)
    rw [hsc _ hlow]
    have hmc : maskCounts (os.map letterCounts) (m % 2 ^ os.length) =
        maskCounts (os.map letterCounts) m := by
      have := maskCounts_mod (os.map letterCounts) m
      rwa [hlenm] at this
    rw [hmc]
    have hd : m / 2 ^ os.length = 1 := by
      apply Nat.div_eq_of_lt_le
      · simpa using Nat.le_of_not_lt h
      · have h2 : (1 + 1) * 2 ^ os.length = 2 ^ (os.length + 1) := by
          rw [pow_succ, Nat.mul_comm]
        rw [h2]
        exact hm
    rw [hd]
    simp

theorem ext_words_eq (os : List Word) (nw : Word) (sw : Nat → List Word)
    (hsw : ∀ m < 2 ^ os.length, sw m = maskWords os m)
    (m : Nat) (hm : m < 2 ^ (os.length + 1)) :
    (if m < 2 ^ os.length then sw m
      else sw (m % 2 ^ os.length) ++ [nw]) = maskWords (os ++ [nw]) m := by
  rw [maskWords_append]
  by_cases h : m < 2 ^ os.length
  · rw [if_pos h, hsw m h, Nat.div_eq_of_lt h]
    simp
  · rw [if_neg h]
    have hlow : m % 2 ^ os.length < 2 ^ os.length :=
      Nat.mod_lt m (pow_pos (by norm_num) os.length)
    rw [hsw _ hlow, maskWords_mod]
    have hd : m / 2 ^ os.length = 1 := by
      apply Nat.div_eq_of_lt_le
      · simpa using Nat.le_of_not_lt h
      · have h2 : (1 + 1) * 2 ^ os.length = 2 ^ (os.length + 1) := by
          rw [pow_succ, Nat.mul_comm]
        rw [h2]
        exact hm
    rw [hd]
    simp

theorem maskScan_congr (tc avail : LCounts) (wcs : List LCounts)
    (t1 t2 : SubsetTables) (n : Nat)
    (h : ∀ m < n, t1.counts m = t2.counts m ∧ t1.words m = t2.words m) :
    maskScan tc avail wcs t1 n = maskScan tc avail wcs t2 n := by
  induction n with
  | zero => rfl
  | succ n ih =>
    unfold maskScan
    have ht : tryMask tc avail wcs t1 n = tryMask tc avail wcs t2 n := by
      unfold tryMask
      rw [(h n (Nat.lt_succ_self n)).1, (h n (Nat.lt_succ_self n)).2]
    rw [ht, ih (fun m hm => h m (Nat.lt_succ_of_lt hm))]

theorem findOneConstruction_congr (ws : List Word) (avail : LCounts)
    (wcs : List LCounts) (tc : LCounts) (t1 t2 : SubsetTables)
    (hn : t1.numMasks = t2.numMasks)
    (h : ∀ m < t2.numMasks, t1.counts m = t2.counts m ∧ t1.words m = t2.words m) :
    findOneConstruction ws avail wcs tc t1 = findOneConstruction ws avail wcs tc t2 := by
  unfold findOneConstruction
  split_ifs
  · rfl
  · rw [hn]
    exact maskScan_congr tc avail wcs t1 t2 t2.numMasks h

theorem resolveCache_extend (c : SubsetCache) (newFull : List Word) (nw : Word)
    (hnw : nw ∉ c.playerWordsUnique)
    (hmem : ∀ w, w ∈ newFull ↔ w ∈ c.playerWordsUnique ∨ w = nw)
    (hlen : newFull.length = c.playerWordsUnique.length + 1) :
    resolveCache (some c) newFull =
      ((c.playerWordsUnique ++ [nw], c.playerWordCounts ++ [letterCounts nw]),
        ⟨fun m => if m < 2 ^ c.playerWordsUnique.length then c.subsetCounts m
            else c.subsetCounts (m % 2 ^ c.playerWordsUnique.length) + letterCounts nw,
          fun m => if m < 2 ^ c.playerWordsUnique.length then c.subsetWords m
            else c.subsetWords (m % 2 ^ c.playerWordsUnique.length) ++ [nw],
          2 ^ newFull.length⟩,
        ⟨sortWords newFull,
          fun m => if m < 2 ^ c.playerWordsUnique.length then c.subsetCounts m
            else c.subsetCounts (m % 2 ^ c.playerWordsUnique.length) + letterCounts nw,
          fun m => if m < 2 ^ c.playerWordsUnique.length then c.subsetWords m
            else c.subsetWords (m % 2 ^ c.playerWordsUnique.length) ++ [nw],
          2 ^ newFull.length,
          c.playerWordsUnique ++ [nw], c.playerWordCounts ++ [letterCounts nw]⟩) := by
  have hfind : newFull.find? (fun w => decide (w ∉ c.playerWordsUnique)) = some nw := by
    have hex : ∃ x ∈ newFull, decide (x ∉ c.playerWordsUnique) = true :=
      ⟨nw, (hmem nw).mpr (Or.inr rfl), by simpa using hnw⟩
    have hsome := List.find?_isSome.mpr hex
    obtain ⟨w0, hw0⟩ := Option.isSome_iff_exists.mp hsome
    have h1 : w0 ∉ c.playerWordsUnique := by simpa using List.find?_some hw0
    have h2 := List.mem_of_find?_eq_some hw0
    have h3 : w0 = nw := by
      rcases (hmem w0).mp h2 with h | h
      · exact absurd h h1
      · exact h
    rw [h3] at hw0
    exact hw0
  have hall : newFull.all (fun w => decide (w = nw ∨ w ∈ c.playerWordsUnique)) = true := by
    rw [List.all_eq_true]
    intro w hw
    rcases (hmem w).mp hw with h | h
    · simp [h]
    · simp [h]
  simp only [resolveCache, hlen, hfind, hall, if_true, if_pos rfl]

/-- The byte conditions under which mask `m` of the byte-accurate scan
yields a construction. -/
def goodMaskU8 (tc avail : BCounts) (wcs : List BCounts) (t : SubsetTablesU8)
    (m : Nat) : Prop :=
  bLE (t.counts m) tc = true ∧ bLE (bSub tc (t.counts m)) avail = true ∧
  2 ≤ (t.words m).length + bSum (bSub tc (t.counts m)) ∧
  ¬((t.words m).length = 0 ∧ 0 < bSum (bSub tc (t.counts m)) ∧
    ∃ wc ∈ wcs, bEq wc (bSub tc (t.counts m)) = true)

theorem tryMaskU8_isSome_iff (tc avail : BCounts) (wcs : List BCounts)
    (t : SubsetTablesU8) (m : Nat) :
    (tryMaskU8 tc avail wcs t m).isSome ↔ goodMaskU8 tc avail wcs t m := by
  unfold tryMaskU8 goodMaskU8
  split_ifs with h1 h2 h3 h4
  · refine iff_of_false (by simp) ?_
    rintro ⟨_, _, _, hno⟩
    refine hno ⟨h4.1, h4.2.1, ?_⟩
    have h5 := h4.2.2
    rw [List.any_eq_true] at h5
    exact h5
  · refine iff_of_true (by simp) ⟨h1, h2, h3, ?_⟩
    rintro ⟨a, b, hex⟩
    exact h4 ⟨a, b, List.any_eq_true.mpr hex⟩
  · refine iff_of_false (by simp) ?_
    rintro ⟨_, _, hc, _⟩
    exact h3 hc
  · refine iff_of_false (by simp) ?_
    rintro ⟨_, hc, _, _⟩
    exact h2 hc
  · refine iff_of_false (by simp) ?_
    rintro ⟨hc, _, _, _⟩
    exact h1 hc

theorem maskScanU8_isSome_iff (tc avail : BCounts) (wcs : List BCounts)
    (t : SubsetTablesU8) (n : Nat) :
    (maskScanU8 tc avail wcs t n).isSome ↔ ∃ m < n, goodMaskU8 tc avail wcs t m := by
  induction n with
  | zero => simp [maskScanU8]
  | succ n ih =>
    unfold maskScanU8
    rcases htr : tryMaskU8 tc avail wcs t n with _ | c
    · simp only [htr]
      rw [ih]
      constructor
      · rintro ⟨m, hm, hg⟩
        exact ⟨m, Nat.lt_succ_of_lt hm, hg⟩
      · rintro ⟨m, hm, hg⟩
        rcases Nat.lt_succ_iff_lt_or_eq.mp hm with hm2 | hm2
        · exact ⟨m, hm2, hg⟩
        · subst hm2
          have h6 := (tryMaskU8_isSome_iff tc avail wcs t m).mpr hg
          rw [htr] at h6
          simp at h6
    · simp only [htr]
      refine iff_of_true (by simp) ⟨n, Nat.lt_succ_self n, ?_⟩
      have h6 : (tryMaskU8 tc avail wcs t n).isSome := by rw [htr]; rfl
      exact (tryMaskU8_isSome_iff tc avail wcs t n).mp h6

theorem findOneConstructionU8_isSome_iff (ws : List Word) (avail : BCounts)
    (wcs : List BCounts) (tc : BCounts) (t : SubsetTablesU8) :
    (findOneConstructionU8 ws avail wcs tc t).isSome ↔
      (bLE tc avail = true ∧ 2 ≤ bSum tc ∧
        ¬(0 < ws.length ∧ ∃ wc ∈ wcs, bEq wc tc = true)) ∨
      ∃ m < t.numMasks, goodMaskU8 tc avail wcs t m := by
  have hcond : (bLE tc avail = true ∧ 2 ≤ bSum tc ∧
      ¬(0 < ws.length ∧ (wcs.any (fun wc => bEq wc tc)) = true)) ↔
      (bLE tc avail = true ∧ 2 ≤ bSum tc ∧
        ¬(0 < ws.length ∧ ∃ wc ∈ wcs, bEq wc tc = true)) :=
    and_congr Iff.rfl (and_congr Iff.rfl
      (not_congr (and_congr Iff.rfl List.any_eq_true)))
  unfold findOneConstructionU8
  split_ifs with hfast
  · exact iff_of_true (by simp) (Or.inl (hcond.mp hfast))
  · rw [maskScanU8_isSome_iff]
    constructor
    · exact Or.inr
    · rintro (hl | hr)
      · exact absurd (hcond.mpr hl) hfast
      · exact hr

theorem precomputeTablesU8_counts (ws : List Word) (m : Nat) :
    (precomputeTablesU8 ws).counts m =
      bOf (((maskWords ws m).map letterCounts).sum) := by
  show maskCountsU8 (ws.map letterCountsU8) m = _
  rw [maskCountsU8_letterCounts, ← sum_maskWords]

/-- Semantic existence of a construction over a unique-word list in the
byte-accurate model.  The byte value of a subset's counts is exactly the
byte image `bOf` of the ideal letter sum of the chosen sub-list, so the
conditions are phrased through that image and the predicate depends only on
the multiset of player words. -/
def consExistsU8 (ws : List Word) (avail tc : BCounts) : Prop :=
  (bLE tc avail = true ∧ 2 ≤ bSum tc ∧
    ¬(0 < ws.length ∧ ∃ wc ∈ ws.map letterCountsU8, bEq wc tc = true)) ∨
  ∃ l : List Word, l.Sublist ws ∧
    (bLE (bOf ((l.map letterCounts).sum)) tc = true ∧
     bLE (bSub tc (bOf ((l.map letterCounts).sum))) avail = true ∧
     2 ≤ l.length + bSum (bSub tc (bOf ((l.map letterCounts).sum))) ∧
     ¬(l.length = 0 ∧ 0 < bSum (bSub tc (bOf ((l.map letterCounts).sum))) ∧
       ∃ wc ∈ ws.map letterCountsU8,
         bEq wc (bSub tc (bOf ((l.map letterCounts).sum))) = true))

/-- With freshly precomputed byte tables, the byte-accurate
`findOneConstruction` succeeds exactly when a construction exists
semantically. -/
theorem cold_isSome_iffU8 (ws : List Word) (avail tc : BCounts) :
    (findOneConstructionU8 ws avail (ws.map letterCountsU8) tc
      (precomputeTablesU8 ws)).isSome ↔ consExistsU8 ws avail tc := by
  rw [findOneConstructionU8_isSome_iff]
  unfold consExistsU8
  apply or_congr Iff.rfl
  show (∃ m < (precomputeTablesU8 ws).numMasks, goodMaskU8 tc avail _ _ m) ↔ _
  have hnum : (precomputeTablesU8 ws).numMasks = 2 ^ ws.length := rfl
  rw [hnum]
  have hgm : ∀ m, goodMaskU8 tc avail (ws.map letterCountsU8)
      (precomputeTablesU8 ws) m ↔
      (bLE (bOf (((maskWords ws m).map letterCounts).sum)) tc = true ∧
       bLE (bSub tc (bOf (((maskWords ws m).map letterCounts).sum))) avail = true ∧
       2 ≤ (maskWords ws m).length +
         bSum (bSub tc (bOf (((maskWords ws m).map letterCounts).sum))) ∧
       ¬((maskWords ws m).length = 0 ∧
         0 < bSum (bSub tc (bOf (((maskWords ws m).map letterCounts).sum))) ∧
         ∃ wc ∈ ws.map letterCountsU8,
           bEq wc (bSub tc (bOf (((maskWords ws m).map letterCounts).sum))) = true)) := by
    intro m
    unfold goodMaskU8
    have hc : (precomputeTablesU8 ws).counts m =
        bOf (((maskWords ws m).map letterCounts).sum) := precomputeTablesU8_counts ws m
    have hw : (precomputeTablesU8 ws).words m = maskWords ws m := rfl
    rw [hc, hw]
  rw [exists_congr (fun m => and_congr Iff.rfl (hgm m))]
  exact exists_mask_iff ws (fun l =>
    (bLE (bOf ((l.map letterCounts).sum)) tc = true ∧
     bLE (bSub tc (bOf ((l.map letterCounts).sum))) avail = true ∧
     2 ≤ l.length + bSum (bSub tc (bOf ((l.map letterCounts).sum))) ∧
     ¬(l.length = 0 ∧ 0 < bSum (bSub tc (bOf ((l.map letterCounts).sum))) ∧
       ∃ wc ∈ ws.map letterCountsU8,
         bEq wc (bSub tc (bOf ((l.map letterCounts).sum))) = true)))

/-- `consExistsU8` only depends on the player words up to permutation. -/
theorem consExistsU8_perm {ws₁ ws₂ : List Word} (hp : ws₁.Perm ws₂)
    (avail tc : BCounts) : consExistsU8 ws₁ avail tc ↔ consExistsU8 ws₂ avail tc := by
  have hmemc : ∀ wc, wc ∈ ws₁.map letterCountsU8 ↔ wc ∈ ws₂.map letterCountsU8 :=
    fun wc => (hp.map letterCountsU8).mem_iff
  have hlen : ws₁.length = ws₂.length := hp.length_eq
  have hone : ∀ {wsa wsb : List Word}, wsa.Perm wsb →
      (∃ l : List Word, l.Sublist wsa ∧
        (bLE (bOf ((l.map letterCounts).sum)) tc = true ∧
         bLE (bSub tc (bOf ((l.map letterCounts).sum))) avail = true ∧
         2 ≤ l.length + bSum (bSub tc (bOf ((l.map letterCounts).sum))) ∧
         ¬(l.length = 0 ∧ 0 < bSum (bSub tc (bOf ((l.map letterCounts).sum))) ∧
           ∃ wc ∈ wsa.map letterCountsU8,
             bEq wc (bSub tc (bOf ((l.map letterCounts).sum))) = true))) →
      (∃ l : List Word, l.Sublist wsb ∧
        (bLE (bOf ((l.map letterCounts).sum)) tc = true ∧
         bLE (bSub tc (bOf ((l.map letterCounts).sum))) avail = true ∧
         2 ≤ l.length + bSum (bSub tc (bOf ((l.map letterCounts).sum))) ∧
         ¬(l.length = 0 ∧ 0 < bSum (bSub tc (bOf ((l.map letterCounts).sum))) ∧
           ∃ wc ∈ wsb.map letterCountsU8,
             bEq wc (bSub tc (bOf ((l.map letterCounts).sum))) = true))) := by
    intro wsa wsb hab
    rintro ⟨l, hsub, h1, h2, h3, h4⟩
    have hsp : List.Subperm l wsb := (hsub.subperm).trans hab.subperm
    obtain ⟨l2, hl2p, hl2s⟩ := hsp
    have hsum : bOf ((l2.map letterCounts).sum) = bOf ((l.map letterCounts).sum) :=
      congrArg bOf ((hl2p.map letterCounts).sum_eq)
    have hlen2 : l2.length = l.length := hl2p.length_eq
    refine ⟨l2, hl2s, ?_, ?_, ?_, ?_⟩
    · rw [hsum]; exact h1
    · rw [hsum]; exact h2
    · rw [hsum, hlen2]; exact h3
    · rw [hsum, hlen2]
      intro hcon
      obtain ⟨a, b, wc, hwc, he⟩ := hcon
      exact h4 ⟨a, b, wc, ((hab.map letterCountsU8).mem_iff).mpr hwc, he⟩
  unfold consExistsU8
  constructor
  · rintro (hf | he)
    · refine Or.inl ⟨hf.1, hf.2.1, ?_⟩
      rintro ⟨hl, wc, hwc, hce⟩
      exact hf.2.2 ⟨hlen ▸ hl, wc, (hmemc wc).mpr hwc, hce⟩
    · exact Or.inr (hone hp he)
  · rintro (hf | he)
    · refine Or.inl ⟨hf.1, hf.2.1, ?_⟩
      rintro ⟨hl, wc, hwc, hce⟩
      exact hf.2.2 ⟨hlen ▸ hl, wc, (hmemc wc).mp hwc, hce⟩
    · exact Or.inr (hone hp.symm he)

theorem maskScanU8_congr (tc avail : BCounts) (wcs : List BCounts)
    (t1 t2 : SubsetTablesU8) (n : Nat)
    (h : ∀ m < n, t1.counts m = t2.counts m ∧ t1.words m = t2.words m) :
    maskScanU8 tc avail wcs t1 n = maskScanU8 tc avail wcs t2 n := by
  induction n with
  | zero => rfl
  | succ n ih =>
    unfold maskScanU8
    have ht : tryMaskU8 tc avail wcs t1 n = tryMaskU8 tc avail wcs t2 n := by
      unfold tryMaskU8
      rw [(h n (Nat.lt_succ_self n)).1, (h n (Nat.lt_succ_self n)).2]
    rw [ht, ih (fun m hm => h m (Nat.lt_succ_of_lt hm))]

theorem findOneConstructionU8_congr (ws : List Word) (avail : BCounts)
    (wcs : List BCounts) (tc : BCounts) (t1 t2 : SubsetTablesU8)
    (hn : t1.numMasks = t2.numMasks)
    (h : ∀ m < t2.numMasks, t1.counts m = t2.counts m ∧ t1.words m = t2.words m) :
    findOneConstructionU8 ws avail wcs tc t1 =
      findOneConstructionU8 ws avail wcs tc t2 := by
  unfold findOneConstructionU8
  split_ifs
  · rfl
  · rw [hn]
    exact maskScanU8_congr tc avail wcs t1 t2 t2.numMasks h

theorem resolveCacheU8_extend (c : SubsetCacheU8) (newFull : List Word) (nw : Word)
    (hnw : nw ∉ c.playerWordsUnique)
    (hmem : ∀ w, w ∈ newFull ↔ w ∈ c.playerWordsUnique ∨ w = nw)
    (hlen : newFull.length = c.playerWordsUnique.length + 1) :
    resolveCacheU8 (some c) newFull =
      ((c.playerWordsUnique ++ [nw], c.playerWordCounts ++ [letterCountsU8 nw]),
        ⟨fun m => if m < 2 ^ c.playerWordsUnique.length then c.subsetCounts m
            else bAdd (c.subsetCounts (m % 2 ^ c.playerWordsUnique.length))
              (letterCountsU8 nw),
          fun m => if m < 2 ^ c.playerWordsUnique.length then c.subsetWords m
            else c.subsetWords (m % 2 ^ c.playerWordsUnique.length) ++ [nw],
          2 ^ newFull.length⟩,
        ⟨sortWords newFull,
          fun m => if m < 2 ^ c.playerWordsUnique.length then c.subsetCounts m
            else bAdd (c.subsetCounts (m % 2 ^ c.playerWordsUnique.length))
              (letterCountsU8 nw),
          fun m => if m < 2 ^ c.playerWordsUnique.length then c.subsetWords m
            else c.subsetWords (m % 2 ^ c.playerWordsUnique.length) ++ [nw],
          2 ^ newFull.length,
          c.playerWordsUnique ++ [nw], c.playerWordCounts ++ [letterCountsU8 nw]⟩) := by
  have hfind : newFull.find? (fun w => decide (w ∉ c.playerWordsUnique)) = some nw := by
    have hex : ∃ x ∈ newFull, decide (x ∉ c.playerWordsUnique) = true :=
      ⟨nw, (hmem nw).mpr (Or.inr rfl), by simpa using hnw⟩
    have hsome := List.find?_isSome.mpr hex
    obtain ⟨w0, hw0⟩ := Option.isSome_iff_exists.mp hsome
    have h1 : w0 ∉ c.playerWordsUnique := by simpa using List.find?_some hw0
    have h2 := List.mem_of_find?_eq_some hw0
    have h3 : w0 = nw := by
      rcases (hmem w0).mp h2 with h | h
      · exact absurd h h1
      · exact h
    rw [h3] at hw0
    exact hw0
  have hall : newFull.all (fun w => decide (w = nw ∨ w ∈ c.playerWordsUnique)) = true := by
    rw [List.all_eq_true]
    intro w hw
    rcases (hmem w).mp hw with h | h
    · simp [h]
    · simp [h]
  simp only [resolveCacheU8, hlen, hfind, hall, if_true, if_pos rfl]

theorem ext_counts_eqU8 (os : List Word) (nw : Word) (sc : Nat → BCounts)
    (hsc : ∀ m < 2 ^ os.length, sc m = maskCountsU8 (os.map letterCountsU8) m)
    (m : Nat) (hm : m < 2 ^ (os.length + 1)) :
    (if m < 2 ^ os.length then sc m
      else bAdd (sc (m % 2 ^ os.length)) (letterCountsU8 nw)) =
      maskCountsU8 ((os ++ [nw]).map letterCountsU8) m := by
  have hideal := ext_counts_eq os nw (fun k => maskCounts (os.map letterCounts) k)
    (fun k _ => rfl) m hm
  rw [maskCountsU8_letterCounts (os ++ [nw]) m, ← hideal]
  by_cases h : m < 2 ^ os.length
  · rw [if_pos h, if_pos h, hsc m h, maskCountsU8_letterCounts]
  · have hlow : m % 2 ^ os.length < 2 ^ os.length :=
      Nat.mod_lt m (pow_pos (by norm_num) os.length)
    rw [if_neg h, if_neg h, hsc _ hlow, maskCountsU8_letterCounts,
      letterCountsU8_eq, ← bOf_add]

/-- Claim C4: extending the subset cache on a snapshot whose unique player
words are the cached ones plus exactly one new word yields the same
recommendation key list (hence the same set of recommended target words) as
a cold (empty-cache) run.  The cache is assumed well formed, i.e. holding
what `processGameState` itself stores: byte-accurate per-mask subset counts
and subset words of its deduplicated word list, and that list's letter
counts.  No bound on the counts is needed: the wrapped extension tables
coincide with the wrapped cold tables of the extended list. -/
theorem claim_c4 (payload : GamePayload) (dict : List Word) (c : SubsetCacheU8)
    (nw : Word)
    (hnodup : c.playerWordsUnique.Nodup)
    (hnw : nw ∉ c.playerWordsUnique)
    (hmem : ∀ w, w ∈ uniqueWordsOf payload ↔ w ∈ c.playerWordsUnique ∨ w = nw)
    (hcounts : ∀ m < 2 ^ c.playerWordsUnique.length,
      c.subsetCounts m = maskCountsU8 (c.playerWordsUnique.map letterCountsU8) m)
    (hwords : ∀ m < 2 ^ c.playerWordsUnique.length,
      c.subsetWords m = maskWords c.playerWordsUnique m)
    (hwcs : c.playerWordCounts = c.playerWordsUnique.map letterCountsU8) :
    (processGameStateU8 payload dict (some c)).recommended.map RecEntry.word =
      (processGameStateU8 payload dict none).recommended.map RecEntry.word := by
  have hnodupNew : (uniqueWordsOf payload).Nodup := jsUnique_nodup _
  have hnodupExt : (c.playerWordsUnique ++ [nw]).Nodup := by
    rw [List.nodup_append]
    refine ⟨hnodup, List.nodup_singleton nw, ?_⟩
    intro a ha hb
    rw [List.mem_singleton] at hb
    exact hnw (hb ▸ ha)
  have hperm : (c.playerWordsUnique ++ [nw]).Perm (uniqueWordsOf payload) :=
    (List.perm_ext_iff_of_nodup hnodupExt hnodupNew).mpr (fun a => by
      rw [List.mem_append, List.mem_singleton]
      exact (hmem a).symm)
  have hlen : (uniqueWordsOf payload).length = c.playerWordsUnique.length + 1 := by
    have := hperm.length_eq
    simpa using this.symm
  have hres := resolveCacheU8_extend c (uniqueWordsOf payload) nw hnw hmem hlen
  rw [processGameStateU8_recommended, processGameStateU8_recommended,
    List.map_filterMap, List.map_filterMap]
  apply List.filterMap_congr
  intro word _
  by_cases hcand : candidateOKU8 (poolCountsU8Of payload)
      (bSum (poolCountsU8Of payload)) word
  · rw [if_pos hcand, if_pos hcand, Option.map_map, Option.map_map]
    have hconst : ∀ (o1 o2 : Option (List Word)),
        (o1.isSome ↔ o2.isSome) →
        o1.map (RecEntry.word ∘ fun cns : List Word =>
          (⟨word, cns, ((cns.filter (fun b => decide (b.length = 1))).length)⟩ :
            RecEntry)) =
        o2.map (RecEntry.word ∘ fun cns : List Word =>
          (⟨word, cns, ((cns.filter (fun b => decide (b.length = 1))).length)⟩ :
            RecEntry)) := by
      intro o1 o2 h
      rcases o1 with _ | a <;> rcases o2 with _ | b
      · rfl
      · simp at h
      · simp at h
      · rfl
    apply hconst
    have hextfind : findOneConstructionU8
        (resolveCacheU8 (some c) (uniqueWordsOf payload)).1.1
        (availCountsU8Of payload) (resolveCacheU8 (some c) (uniqueWordsOf payload)).1.2
        (letterCountsU8 word) (resolveCacheU8 (some c) (uniqueWordsOf payload)).2.1 =
        findOneConstructionU8 (c.playerWordsUnique ++ [nw]) (availCountsU8Of payload)
          ((c.playerWordsUnique ++ [nw]).map letterCountsU8) (letterCountsU8 word)
          (precomputeTablesU8 (c.playerWordsUnique ++ [nw])) := by
      rw [hres]
      show findOneConstructionU8 (c.playerWordsUnique ++ [nw]) _
          (c.playerWordCounts ++ [letterCountsU8 nw]) _ _ = _
      have hwcs2 : c.playerWordCounts ++ [letterCountsU8 nw] =
          (c.playerWordsUnique ++ [nw]).map letterCountsU8 := by
        rw [hwcs]
        simp
      rw [hwcs2]
      apply findOneConstructionU8_congr
      · show 2 ^ (uniqueWordsOf payload).length =
          2 ^ (c.playerWordsUnique ++ [nw]).length
        rw [hlen]
        simp
      · intro m hm
        have hm2 : m < 2 ^ (c.playerWordsUnique.length + 1) := by
          have h7 : (precomputeTablesU8 (c.playerWordsUnique ++ [nw])).numMasks =
              2 ^ (c.playerWordsUnique.length + 1) := by
            show 2 ^ (c.playerWordsUnique ++ [nw]).length = _
            simp
          rw [h7] at hm
          exact hm
        constructor
        · exact ext_counts_eqU8 c.playerWordsUnique nw c.subsetCounts hcounts m hm2
        · exact ext_words_eq c.playerWordsUnique nw c.subsetWords hwords m hm2
    rw [hextfind]
    rw [cold_isSome_iffU8 (c.playerWordsUnique ++ [nw]) (availCountsU8Of payload)
      (letterCountsU8 word)]
    have hcold : findOneConstructionU8
        (resolveCacheU8 none (uniqueWordsOf payload)).1.1
        (availCountsU8Of payload) (resolveCacheU8 none (uniqueWordsOf payload)).1.2
        (letterCountsU8 word) (resolveCacheU8 none (uniqueWordsOf payload)).2.1 =
        findOneConstructionU8 (uniqueWordsOf payload) (availCountsU8Of payload)
          ((uniqueWordsOf payload).map letterCountsU8) (letterCountsU8 word)
          (precomputeTablesU8 (uniqueWordsOf payload)) := rfl
    rw [hcold, cold_isSome_iffU8 (uniqueWordsOf payload) (availCountsU8Of payload)
      (letterCountsU8 word)]
    exact consExistsU8_perm hperm (availCountsU8Of payload) (letterCountsU8 word)
  · rw [if_neg hcand, if_neg hcand]

/-- Witness for C4: cached snapshot holds cat (well-formed one-word cache);
the new snapshot adds boat; the extended-cache run and the cold run
recommend the same words. -/
theorem claim_c4_witness :
    (([[2, 0, 19]] : List Word).Nodup ∧ ([1, 14, 0, 19] : Word) ∉ [[2, 0, 19]]) ∧
    ((processGameStateU8 ⟨[[[2, 0, 19], [1, 14, 0, 19]]], [14, 17]⟩
        [[0, 2, 19, 14, 17], [1, 14, 0, 19, 18]]
        (some ⟨sortWords [[2, 0, 19]],
          maskCountsU8 ([[2, 0, 19]].map letterCountsU8),
          maskWords [[2, 0, 19]], 2 ^ 1, [[2, 0, 19]],
          [[2, 0, 19]].map letterCountsU8⟩)).recommended.map RecEntry.word =
      (processGameStateU8 ⟨[[[2, 0, 19], [1, 14, 0, 19]]], [14, 17]⟩
        [[0, 2, 19, 14, 17], [1, 14, 0, 19, 18]] none).recommended.map RecEntry.word) :=
  ⟨⟨by decide, by decide⟩,
    claim_c4 ⟨[[[2, 0, 19], [1, 14, 0, 19]]], [14, 17]⟩
      [[0, 2, 19, 14, 17], [1, 14, 0, 19, 18]]
      ⟨sortWords [[2, 0, 19]], maskCountsU8 ([[2, 0, 19]].map letterCountsU8),
        maskWords [[2, 0, 19]], 2 ^ 1, [[2, 0, 19]],
        [[2, 0, 19]].map letterCountsU8⟩
      [1, 14, 0, 19] (by decide) (by decide)
      (fun w => by
        have h : uniqueWordsOf
            ⟨[[[2, 0, 19], [1, 14, 0, 19]]], [14, 17]⟩ =
            [[2, 0, 19], [1, 14, 0, 19]] := by decide
        rw [h]
        show w ∈ ([[2, 0, 19], [1, 14, 0, 19]] : List Word) ↔
          w ∈ ([[2, 0, 19]] : List Word) ∨ w = [1, 14, 0, 19]
        simp [List.mem_cons, List.mem_singleton])
      (fun m _ => rfl) (fun m _ => rfl) rfl⟩

/-- Counterexample to C3 as stated: the fused state cart, car (reachable
when cart is not in the dictionary but car is) is not a fixed point: on the
identical snapshot, the one-letter-off rule rewrites cart to car, so the
fused players become car, car and the diff emits a word_removed event. -/
theorem claim_c3_counterexample :
    ¬((fuseData ⟨[[[2, 0, 17, 19], [2, 0, 17]]], []⟩
          (some ⟨[[2, 0, 17, 19], [2, 0, 17]], []⟩) [[2, 0, 17]]
          ⟨[], []⟩ ⟨[]⟩ ⟨[]⟩).1 =
        ⟨[[[2, 0, 17, 19], [2, 0, 17]]], []⟩ ∧
      (detectChanges ((fuseData ⟨[[[2, 0, 17, 19], [2, 0, 17]]], []⟩
            (some ⟨[[2, 0, 17, 19], [2, 0, 17]], []⟩) [[2, 0, 17]]
            ⟨[], []⟩ ⟨[]⟩ ⟨[]⟩).1.players)
        (fun i => jsUnique (([[[2, 0, 17, 19], [2, 0, 17]]] :
          List (List Word)).getD i [])) (fun _ => 0)).1 = []) := by
  decide

end Pirates
